import Mathlib

/-!
# The site build script `src/build.js`

A shallow embedding of the build script and theorems about it.

A JavaScript string is a finite sequence of code units; it is modelled as a
`List Char`.  Every library routine the script calls (`String.prototype.replace`,
`substr`, `lastIndexOf`, `endsWith`, `trim`, the regular expression
`/(?:<|\()!--title(.+?)--(?:>|\))/g`, `path.join`) is given as an executable
function that follows the ECMAScript / Node definition of that routine.  The
Markdown renderer, the Sass compiler and the file system are parameters.
-/

namespace Build

/-- A JavaScript string. -/
abbrev Str := List Char

/-! ## String primitives -/

/-- `s.endsWith(pat)`. -/
def endsWith (s pat : Str) : Bool := pat.isSuffixOf s

/-- `s.lastIndexOf(pat)`: the largest index at which `pat` occurs in `s`, or `-1`. -/
def lastIndexOf : Str → Str → Int
  | [], pat => if pat = [] then 0 else -1
  | c :: t, pat =>
    let r := lastIndexOf t pat
    if 0 ≤ r then r + 1 else if pat.isPrefixOf (c :: t) then 0 else -1

/-- `s.substr(start, length)`; `length = none` stands for an omitted argument.
A negative `start` counts from the end, a negative `length` gives the empty string. -/
def substr (s : Str) (start : Int) (length : Option Int) : Str :=
  let size : Int := s.length
  let st : Int := if start < 0 then max (size + start) 0 else min start size
  let len : Int :=
    match length with
    | none => size - st
    | some l => min (max l 0) (size - st)
  (s.drop st.toNat).take len.toNat

/-- The first occurrence of `pat` in `s` (`s.indexOf(pat)`), returned as the text
before it and the text after it; `none` when `pat` does not occur. -/
def splitFirst (pat : Str) : Str → Option (Str × Str)
  | [] => if pat = [] then some ([], []) else none
  | c :: t =>
    if pat.isPrefixOf (c :: t) then some ([], (c :: t).drop pat.length)
    else (splitFirst pat t).map fun r => (c :: r.1, r.2)

/-- The character U+0060, which introduces the "text before the match" pattern. -/
def graveAccent : Char := Char.ofNat 96

/-- The character U+0027, which introduces the "text after the match" pattern. -/
def apostrophe : Char := Char.ofNat 39

/-- ECMAScript `GetSubstitution` for a string search value (no capture groups, no
named groups): in the replacement text a dollar sign followed by a dollar sign
yields one dollar sign, followed by an ampersand yields the matched text, followed
by U+0060 yields the text before the match, followed by U+0027 yields the text
after the match; every other character (also a dollar sign followed by digits or
by `<`) is copied. -/
def getSubstitution (matched before after : Str) : Str → Str
  | [] => []
  | [c] => [c]
  | c :: d :: t2 =>
    if c = '$' then
      if d = '$' then '$' :: getSubstitution matched before after t2
      else if d = graveAccent then before ++ getSubstitution matched before after t2
      else if d = '&' then matched ++ getSubstitution matched before after t2
      else if d = apostrophe then after ++ getSubstitution matched before after t2
      else c :: getSubstitution matched before after (d :: t2)
    else c :: getSubstitution matched before after (d :: t2)

/-- `s.replace(pat, repl)` for a string `pat`: only the first occurrence is
replaced, and `repl` is expanded by `getSubstitution`. -/
def replaceStr (s pat repl : Str) : Str :=
  match splitFirst pat s with
  | none => s
  | some (before, after) => before ++ getSubstitution pat before after repl ++ after

/-- ECMAScript `LineTerminator` code points: what `.` does not match. -/
def isLineTerminator (c : Char) : Bool :=
  c.toNat = 0x0A || c.toNat = 0x0D || c.toNat = 0x2028 || c.toNat = 0x2029

/-- ECMAScript `WhiteSpace` and `LineTerminator` code points: what `trim` removes. -/
def isTrimChar (c : Char) : Bool :=
  c.toNat = 0x09 || c.toNat = 0x0B || c.toNat = 0x0C || c.toNat = 0x20 || c.toNat = 0xA0
    || c.toNat = 0x1680 || (0x2000 ≤ c.toNat && c.toNat ≤ 0x200A) || c.toNat = 0x202F
    || c.toNat = 0x205F || c.toNat = 0x3000 || c.toNat = 0xFEFF || isLineTerminator c

/-- `s.trim()`. -/
def trim (s : Str) : Str :=
  ((s.dropWhile isTrimChar).reverse.dropWhile isTrimChar).reverse

/-! ## The title regular expression `/(?:<|\()!--title(.+?)--(?:>|\))/g` -/

/-- The literal `!--title` that follows the opening bracket of a title marker. -/
def titleCore : Str := "!--title".toList

/-- The tail `--(?:>|\))` of the regular expression, matched at the head of `s`;
returns the text after it. -/
def closer : Str → Option Str
  | a :: b :: c :: rest =>
    if a = '-' ∧ b = '-' ∧ (c = '>' ∨ c = ')') then some rest else none
  | _ => none

/-- The lazy group `(.+?)` followed by the tail of the expression: take one
character that is not a line terminator, then try the tail, and on failure take
one character more.  `acc` is the text captured so far.  Returns the captured
group and the text after the match. -/
def lazyGroup (acc : Str) : Str → Option (Str × Str)
  | [] => none
  | ch :: t =>
    if isLineTerminator ch then none
    else
      match closer t with
      | some rest => some (acc ++ [ch], rest)
      | none => lazyGroup (acc ++ [ch]) t

/-- One attempt to match the title expression at the head of `s`: the captured
group and the text after the match. -/
def matchAt : Str → Option (Str × Str)
  | [] => none
  | o :: t =>
    if (o = '<' ∨ o = '(') ∧ titleCore.isPrefixOf t then lazyGroup [] (t.drop titleCore.length)
    else none

/-- `titleRegex.exec(s)` on a fresh expression (`lastIndex = 0`): the leftmost
match, as the text before it, the captured group and the text after it. -/
def execTitle : Str → Option (Str × Str × Str)
  | [] => none
  | c :: t =>
    match matchAt (c :: t) with
    | some (g, rest) => some ([], g, rest)
    | none => (execTitle t).map fun r => (c :: r.1, r.2.1, r.2.2)

/-- The scan of `s.replace(titleRegex, "")`.  `skip` counts the characters of the
current match that are still to be dropped; with `skip = 0` a match is attempted
at the head and, when it fails, the head is kept. -/
def stripFrom : Nat → Str → Str
  | _, [] => []
  | k + 1, _ :: t => stripFrom k t
  | 0, c :: t =>
    match matchAt (c :: t) with
    | some (_, rest) => stripFrom (t.length - rest.length) t
    | none => c :: stripFrom 0 t

/-- `s.replace(titleRegex, "")` with the global flag: every match found by one
left-to-right scan is deleted. -/
def stripTitles (s : Str) : Str := stripFrom 0 s

/-- The pieces of text the scan of `stripFrom` keeps: the text before the first
deleted match, the texts between two deleted matches, and the text behind the
last one. -/
def keptFrom : Nat → Str → List Str
  | _, [] => [[]]
  | k + 1, _ :: t => keptFrom k t
  | 0, c :: t =>
    match matchAt (c :: t) with
    | some (_, rest) => [] :: keptFrom (t.length - rest.length) t
    | none =>
      match keptFrom 0 t with
      | [] => [[c]]
      | p :: ps => (c :: p) :: ps

/-- The pieces of `s` that `s.replace(titleRegex, "")` keeps. -/
def keptPieces (s : Str) : List Str := keptFrom 0 s

/-- The number of positions of `s` at which `pat` occurs. -/
def countOccurrences (pat : Str) : Str → Nat
  | [] => 0
  | c :: t => (if pat.isPrefixOf (c :: t) then 1 else 0) + countOccurrences pat t

/-! ## `extension` and `wrapTemplate` -/

/-- `extension(file, ext)` of the script:
`file.substr(0, file.lastIndexOf(".")) + "." + ext`. -/
def extension (file ext : Str) : Str :=
  substr file 0 (some (lastIndexOf file ".".toList)) ++ ".".toList ++ ext

/-- The placeholder of the template that receives the page content. -/
def contentPlaceholder : Str := "<!--place-content-here-->".toList

/-- The placeholder of the template that receives the page title. -/
def titlePlaceholder : Str := "<!--place-title-here-->".toList

/-- `wrapTemplate(html)` of the script; the template file is a parameter. -/
def wrapTemplate (template html : Str) : Str :=
  let result := replaceStr template contentPlaceholder html
  match execTitle html with
  | some (_, g, _) => stripTitles (replaceStr result titlePlaceholder (trim g))
  | none => result

/-! ## Conditions on the text around a deleted marker -/

/-- Whether `s` ends in a non-empty proper beginning of `pat`. -/
def endsInStartOf (pat s : Str) : Bool :=
  (List.range pat.length).any fun k => decide (0 < k) && (pat.take k).isSuffixOf s

/-- Whether `s` begins with a non-empty proper end of `pat`. -/
def beginsWithEndOf (pat s : Str) : Bool :=
  (List.range pat.length).any fun k => decide (0 < k) && (pat.drop k).isPrefixOf s

/-- Whether `s` ends in an opening bracket followed by a proper beginning of
`!--title`, that is in one of `<`, `<!`, ..., `<!--titl` or `(`, `(!`, ...,
`(!--titl`. -/
def endsInMarkerStart (s : Str) : Bool :=
  (List.range titleCore.length).any fun j =>
    ('<' :: titleCore.take j).isSuffixOf s || ('(' :: titleCore.take j).isSuffixOf s

/-- Whether no text that the deletion of the markers keeps in front of a deleted
marker ends in the beginning of a marker. -/
def cutsFormNoMarker (r : Str) : Bool :=
  (keptPieces r).dropLast.all fun p => !endsInMarkerStart p

/-- Whether filling the title slot and deleting the markers of the page made from
`template` and `html` puts no text next to a beginning or an end of a content
placeholder: when `html` holds a title marker, the text before the first title
placeholder of the page does not end in a proper beginning of the content
placeholder, the text behind it does not begin with a proper end of it, and no text
kept in front of a deleted marker ends in a proper beginning of it. -/
def cutsFormNoPlaceholder (template html : Str) : Bool :=
  match execTitle html with
  | none => true
  | some (_, g, _) =>
    (match splitFirst titlePlaceholder (replaceStr template contentPlaceholder html) with
      | none => true
      | some (x, y) =>
        !endsInStartOf contentPlaceholder x && !beginsWithEndOf contentPlaceholder y)
    && (keptPieces
          (replaceStr (replaceStr template contentPlaceholder html) titlePlaceholder
            (trim g))).dropLast.all
        fun p => !endsInStartOf contentPlaceholder p

/-! ## `path.join` (POSIX) -/

/-- `p.split("/")`: the segments of a path; never the empty list. -/
def splitSlash : Str → List Str
  | [] => [[]]
  | c :: t =>
    match splitSlash t with
    | [] => [[]]
    | seg :: rest => if c = '/' then [] :: seg :: rest else (c :: seg) :: rest

/-- One segment of Node's `normalizeString`.  `stack` holds the segments kept so
far, last one first.  Empty segments and `.` are dropped; `..` removes the last
kept segment unless there is none or it is `..` itself, in which case `..` is
kept when the path may climb above its root. -/
def normStep (allowAboveRoot : Bool) (stack : List Str) (seg : Str) : List Str :=
  if seg = [] ∨ seg = ".".toList then stack
  else if seg = "..".toList then
    match stack with
    | top :: rest =>
      if top ≠ "..".toList then rest
      else if allowAboveRoot then seg :: stack else stack
    | [] => if allowAboveRoot then [seg] else []
  else seg :: stack

/-- Node's `normalizeString(path, allowAboveRoot, "/")`. -/
def normalizeString (p : Str) (allowAboveRoot : Bool) : Str :=
  "/".toList.intercalate ((splitSlash p).foldl (normStep allowAboveRoot) []).reverse

/-- Node's `path.posix.normalize`. -/
def normalize (p : Str) : Str :=
  if p = [] then ".".toList
  else
    let isAbsolute := p.head? = some '/'
    let trailingSeparator := p.getLast? = some '/'
    let r := normalizeString p (!isAbsolute)
    if r = [] then
      if isAbsolute then "/".toList else if trailingSeparator then "./".toList else ".".toList
    else
      (if isAbsolute then "/".toList else []) ++ r ++ (if trailingSeparator then "/".toList else [])

/-- Node's `path.posix.join`: the non-empty arguments joined by `/`, normalized. -/
def pathJoin (args : List Str) : Str :=
  match args.filter (fun a => decide (a ≠ [])) with
  | [] => ".".toList
  | parts => normalize ("/".toList.intercalate parts)

/-! ## `render` -/

/-- The object `render` resolves to. -/
structure Rendered where
  /-- The extension the output file gets. -/
  ext : Str
  /-- The content of the output file. -/
  data : Str
  deriving DecidableEq

/-- `render(file, suffix)` of the script, as a function of the content `readFile`
delivers.  `md` is `markdown.render`, `sassRender contents indented` is
`sass.render` (an error rejects the promise), `suffix = none` is an omitted
argument.  `suffix ? suffix : ""` is the suffix, or the empty string. -/
def render {ε : Type} (md : Str → Str) (sassRender : Str → Bool → Except ε Str)
    (template file : Str) (suffix : Option Str) (contents : Str) : Except ε Rendered :=
  let suf : Str :=
    match suffix with
    | some s => s
    | none => []
  if endsWith file ".md".toList then
    .ok ⟨"htm".toList, wrapTemplate template (md contents ++ suf)⟩
  else if endsWith file ".sass".toList || endsWith file ".scss".toList then
    match sassRender contents (endsWith file ".sass".toList) with
    | .error e => .error e
    | .ok css => .ok ⟨"css".toList, css⟩
  else if endsWith file ".htm".toList || endsWith file ".html".toList then
    .ok ⟨"htm".toList, wrapTemplate template (contents ++ suf)⟩
  else
    .ok ⟨substr file (lastIndexOf file ".".toList + 1) none, contents⟩

/-! ## `processDir` -/

/-- An error of a file-system call; `code` is its `code` property. -/
structure FsError where
  /-- The error code, such as `EEXIST`. -/
  code : Str
  deriving DecidableEq

/-- What one call of `processDir` does at its own directory level. -/
structure DirRun where
  /-- The paths handed to `fs.stat` by the `forEach` loop, in order. -/
  visited : List Str
  /-- What the final `.catch(e => console.log(e))` printed. -/
  logged : List FsError
  /-- The state in which the promise returned by `processDir` settles. -/
  settled : Except FsError Unit

/-- `processDir(dir)` of the script as a function of the outcomes of `fs.readdir`
and `fs.mkdir`.  The chain is `readdir.then(..).then(() => mkdir.catch(..))
.then(forEach ..).catch(e => console.log(e))`: `mkdir` runs only after `readdir`
succeeded, its handler re-throws every error whose code is not `EEXIST`, and the
last handler turns every rejection of the chain into a logged, fulfilled promise. -/
def processDir (dir : Str) (readdir : Except FsError (List Str))
    (mkdir : Except FsError Unit) : DirRun :=
  let afterMkdir : Except FsError (List Str) :=
    match readdir with
    | .error e => .error e
    | .ok files =>
      match mkdir with
      | .ok _ => .ok files
      | .error e => if e.code ≠ "EEXIST".toList then .error e else .ok files
  match afterMkdir with
  | .ok files =>
    { visited := files.map fun filename => pathJoin ["resources".toList, dir, filename]
      logged := []
      settled := .ok () }
  | .error e => { visited := [], logged := [e], settled := .ok () }

/-- What the `forEach` callback does with one entry after `fs.stat` answered. -/
inductive EntryAction (ε : Type) where
  /-- The entry is a directory: `processDir` is called on it. -/
  | recurse (dir : Str)
  /-- The entry is a file: `fs.writeFile(path, data)`. -/
  | write (path data : Str)
  /-- The promise of `render` was rejected. -/
  | rejected (e : ε)

/-- The body of the `forEach` callback of `processDir` for the entry `filename` of
`dir`, given whether `stats.isDirectory()` holds and the content of the file. -/
def processEntry {ε : Type} (md : Str → Str) (sassRender : Str → Bool → Except ε Str)
    (template dir filename : Str) (isDirectory : Bool) (contents : Str) : EntryAction ε :=
  let file := pathJoin ["resources".toList, dir, filename]
  if isDirectory then .recurse (pathJoin [dir, filename])
  else
    match render md sassRender template file none contents with
    | .ok r => .write (extension (pathJoin ["public_html".toList, dir, filename]) r.ext) r.data
    | .error e => .rejected e

/-! ## The challenge collection -/

/-- The quotation mark U+0022. -/
def dquote : Str := [Char.ofNat 34]

/-- The link to the rules page of a challenge. -/
def rulesLink (challenge : Str) : Str :=
  "<a href=".toList ++ dquote ++ "/challenges/".toList ++ challenge ++ "/rules".toList
    ++ dquote ++ ">Official Rules</a>".toList

/-- The suffix handed to `render` for the index page of a challenge. -/
def rulesSuffix (challenge : Str) : Str :=
  "<div>".toList ++ rulesLink challenge ++ "</div>".toList

/-- Why the promise chain of one challenge was rejected. -/
inductive ChallengeError (ε : Type) where
  /-- `fs.mkdir` failed with a code other than `EEXIST`; the handler re-throws. -/
  | mkdir (e : FsError)
  /-- The promise of `render` was rejected. -/
  | render (e : ε)

/-- The body of the loop over the challenges, for one challenge: the two
`fs.writeFile` calls (path and data) it makes, given the outcome of `fs.mkdir` and
the contents of `index.md` and `rules.md`.  The chain is
`mkdir.catch(..).then(() => render(index.md, suffix)).then(write)
.then(() => render(rules.md)).then(write)`. -/
def processChallenge {ε : Type} (md : Str → Str) (sassRender : Str → Bool → Except ε Str)
    (template challengesPath challenge : Str) (mkdir : Except FsError Unit)
    (indexMd rulesMd : Str) : Except (ChallengeError ε) (List (Str × Str)) :=
  let afterMkdir : Except (ChallengeError ε) Unit :=
    match mkdir with
    | .ok _ => .ok ()
    | .error e => if e.code ≠ "EEXIST".toList then .error (.mkdir e) else .ok ()
  match afterMkdir with
  | .error e => .error e
  | .ok _ =>
    match render md sassRender template
        (pathJoin [challengesPath, challenge, "index.md".toList])
        (some (rulesSuffix challenge)) indexMd with
    | .error e => .error (.render e)
    | .ok index =>
      match render md sassRender template
          (pathJoin [challengesPath, challenge, "rules.md".toList]) none rulesMd with
      | .error e => .error (.render e)
      | .ok rules =>
        .ok [(pathJoin ["public_html".toList, "content".toList, "challenges".toList, challenge,
                "index.htm".toList], index.data),
             (pathJoin ["public_html".toList, "content".toList, "challenges".toList, challenge,
                "rules.htm".toList], rules.data)]

/-- The line feed U+000A. -/
def lf : Str := [Char.ofNat 10]

/-- The head of the generated index, a template literal of three lines. -/
def challengeIndexHead : Str :=
  "(!--title Previous Challenges--)".toList ++ lf ++ "    # Previous Challenges".toList ++ lf
    ++ "    Here's all the previous challenges and their results:".toList

/-- The Markdown source `challengeIndex` of the script: the head, `os.EOL`, and
then, by `+=` in a loop, one item per challenge. -/
def challengeIndex (eol : Str) (challenges : List Str) : Str :=
  challenges.foldl
    (fun acc challenge =>
      acc ++ ("- [".toList ++ challenge ++ "](/challenges/".toList ++ challenge ++ "/)".toList))
    (challengeIndexHead ++ eol)

/-- The page written to `public_html/content/challenges/index.htm`. -/
def challengeIndexPage (md : Str → Str) (template eol : Str) (challenges : List Str) : Str :=
  wrapTemplate template (md (challengeIndex eol challenges))


/-! ## `extension` -/

theorem isPrefixOf_dot (c : Char) (t : Str) : List.isPrefixOf ['.'] (c :: t) = decide (c = '.') := by
  by_cases h : c = '.'
  · subst h; simp [List.isPrefixOf]
  · have h2 : ¬ '.' = c := fun e => h e.symm
    simp [List.isPrefixOf, h, h2]

theorem lastIndexOf_dot_absent (s : Str) (h : '.' ∉ s) : lastIndexOf s ['.'] = -1 := by
  induction s with
  | nil => simp [lastIndexOf]
  | cons c t ih =>
    have hc : c ≠ '.' := fun e => h (by simp [e])
    have ht : '.' ∉ t := fun m => h (List.mem_cons_of_mem _ m)
    rw [lastIndexOf, ih ht, isPrefixOf_dot]
    simp [hc]

theorem lastIndexOf_dot_append (pre e : Str) (h : '.' ∉ e) :
    lastIndexOf (pre ++ '.' :: e) ['.'] = pre.length := by
  induction pre with
  | nil =>
    rw [List.nil_append, lastIndexOf, lastIndexOf_dot_absent e h, isPrefixOf_dot]
    simp
  | cons c t ih =>
    rw [List.cons_append, lastIndexOf, ih]
    simp

theorem substr_zero (s : Str) (n : Int) : substr s 0 (some n) = s.take n.toNat := by
  unfold substr
  simp only [lt_self_iff_false, ↓reduceIte]
  rcases Int.le_total n 0 with h | h
  · have : n.toNat = 0 := Int.toNat_eq_zero.mpr h
    simp [this, max_eq_right h]
  · have h1 : max n 0 = n := max_eq_left h
    rcases Int.le_total n s.length with h2 | h2
    · simp [h1, min_eq_left h2]
    · have : s.length ≤ n.toNat := by omega
      simp [h1, min_eq_right h2, List.take_of_length_le this]

theorem extension_eq (file ext : Str) :
    extension file ext = file.take (lastIndexOf file ['.']).toNat ++ '.' :: ext := by
  unfold extension
  rw [substr_zero]
  simp

/-- C10: for every file and all extensions e1 and e2 where e1 contains no ".",
extension(extension(file, e1), e2) = extension(file, e2); and when file contains
no "." at all, extension(file, e2) is "." followed by e2. -/
theorem extension_extension (file e1 e2 : Str) (h : '.' ∉ e1) :
    extension (extension file e1) e2 = extension file e2
      ∧ ('.' ∉ file → extension file e2 = '.' :: e2) := by
  constructor
  · rw [extension_eq file e1, extension_eq _ e2, extension_eq file e2,
      lastIndexOf_dot_append _ _ h, Int.toNat_ofNat, List.take_left' rfl]
  · intro hf
    rw [extension_eq, lastIndexOf_dot_absent file hf]
    simp

/-- Witness of C10 at `a.md`, `htm`, `css`. -/
theorem extension_extension_witness :
    '.' ∉ "htm".toList
      ∧ (extension (extension "a.md".toList "htm".toList) "css".toList
            = extension "a.md".toList "css".toList
          ∧ ('.' ∉ "a.md".toList → extension "a.md".toList "css".toList = '.' :: "css".toList)) :=
  ⟨by decide, extension_extension "a.md".toList "htm".toList "css".toList (by decide)⟩

/-! ## `render`: the extension of the output -/

/-- A path ending in `.md` is rendered to `htm`, whatever the suffix. -/
theorem render_md {ε : Type} (md : Str → Str) (sassRender : Str → Bool → Except ε Str)
    (template file : Str) (suffix : Option Str) (contents : Str)
    (h : endsWith file ".md".toList = true) :
    render md sassRender template file suffix contents
      = .ok ⟨"htm".toList, wrapTemplate template (md contents ++ suffix.getD [])⟩ := by
  unfold render
  rw [if_pos h]
  cases suffix <;> rfl

/-- `endsWith` is the suffix relation. -/
theorem endsWith_iff (s pat : Str) : endsWith s pat = true ↔ pat <:+ s := by
  unfold endsWith
  exact List.isSuffixOf_iff_suffix

/-- No string ends with two texts whose last characters differ. -/
theorem endsWith_last_ne (file x y : Str) (c d : Char) (hcd : c ≠ d)
    (h1 : endsWith file (x ++ [c]) = true) (h2 : endsWith file (y ++ [d]) = true) : False := by
  rw [endsWith_iff] at h1 h2
  obtain ⟨a, ha⟩ := h1
  obtain ⟨b, hb⟩ := h2
  have := congrArg List.getLast? (ha.trans hb.symm)
  rw [← List.append_assoc, ← List.append_assoc] at this
  simp at this
  exact hcd this

/-- A path ending in `.sass` or `.scss` is compiled to `css` whenever the compiler
succeeds. -/
theorem render_sass {ε : Type} (md : Str → Str) (sassRender : Str → Bool → Except ε Str)
    (template file : Str) (suffix : Option Str) (contents css : Str)
    (h : endsWith file ".sass".toList = true ∨ endsWith file ".scss".toList = true)
    (hc : sassRender contents (endsWith file ".sass".toList) = .ok css) :
    render md sassRender template file suffix contents = .ok ⟨"css".toList, css⟩ := by
  have hmd : ¬ endsWith file ".md".toList = true := by
    intro hm
    rcases h with h | h
    · exact endsWith_last_ne file ".m".toList ".sas".toList 'd' 's' (by decide) hm h
    · exact endsWith_last_ne file ".m".toList ".scs".toList 'd' 's' (by decide) hm h
  have h2 : (endsWith file ".sass".toList || endsWith file ".scss".toList) = true := by
    rw [Bool.or_eq_true]; exact h
  unfold render
  rw [if_neg hmd, if_pos h2, hc]

/-- A path ending in `.htm` or `.html` is wrapped and gets `htm`. -/
theorem render_htm {ε : Type} (md : Str → Str) (sassRender : Str → Bool → Except ε Str)
    (template file : Str) (suffix : Option Str) (contents : Str)
    (h : endsWith file ".htm".toList = true ∨ endsWith file ".html".toList = true) :
    render md sassRender template file suffix contents
      = .ok ⟨"htm".toList, wrapTemplate template (contents ++ suffix.getD [])⟩ := by
  have hmd : ¬ endsWith file ".md".toList = true := by
    intro hm
    rcases h with h | h
    · exact endsWith_last_ne file ".m".toList ".ht".toList 'd' 'm' (by decide) hm h
    · exact endsWith_last_ne file ".m".toList ".htm".toList 'd' 'l' (by decide) hm h
  have hs : ¬ (endsWith file ".sass".toList || endsWith file ".scss".toList) = true := by
    intro hs
    rw [Bool.or_eq_true] at hs
    rcases hs with hs | hs <;> rcases h with h | h
    · exact endsWith_last_ne file ".sas".toList ".ht".toList 's' 'm' (by decide) hs h
    · exact endsWith_last_ne file ".sas".toList ".htm".toList 's' 'l' (by decide) hs h
    · exact endsWith_last_ne file ".scs".toList ".ht".toList 's' 'm' (by decide) hs h
    · exact endsWith_last_ne file ".scs".toList ".htm".toList 's' 'l' (by decide) hs h
  have h2 : (endsWith file ".htm".toList || endsWith file ".html".toList) = true := by
    rw [Bool.or_eq_true]; exact h
  unfold render
  rw [if_neg hmd, if_neg hs, if_pos h2]
  cases suffix <;> rfl

/-- Any other path that contains a dot gets the text after its last dot, and
`extension` under that ext gives the path back. -/
theorem render_other {ε : Type} (md : Str → Str) (sassRender : Str → Bool → Except ε Str)
    (template stem e : Str) (suffix : Option Str) (contents : Str) (he : '.' ∉ e)
    (h1 : endsWith (stem ++ '.' :: e) ".md".toList = false)
    (h2 : endsWith (stem ++ '.' :: e) ".sass".toList = false)
    (h3 : endsWith (stem ++ '.' :: e) ".scss".toList = false)
    (h4 : endsWith (stem ++ '.' :: e) ".htm".toList = false)
    (h5 : endsWith (stem ++ '.' :: e) ".html".toList = false) :
    render md sassRender template (stem ++ '.' :: e) suffix contents = .ok ⟨e, contents⟩
      ∧ extension (stem ++ '.' :: e) e = stem ++ '.' :: e := by
  constructor
  · unfold render
    rw [h1, h2, h3, h4, h5]
    simp only [Bool.false_eq_true, ↓reduceIte, Bool.or_self]
    have hl : lastIndexOf (stem ++ '.' :: e) ".".toList = stem.length :=
      lastIndexOf_dot_append stem e he
    rw [hl]
    unfold substr
    have hlen : ((stem ++ '.' :: e).length : Int) = stem.length + 1 + e.length := by
      simp; omega
    have hneg : ¬ ((stem.length : Int) + 1 < 0) := by omega
    simp only [hneg, ↓reduceIte, hlen]
    have hmin : min ((stem.length : Int) + 1) (stem.length + 1 + e.length) = stem.length + 1 := by
      omega
    rw [hmin]
    have h6 : ((stem.length : Int) + 1).toNat = stem.length + 1 := by omega
    have h7 : ((stem.length : Int) + 1 + e.length - (stem.length + 1)).toNat = e.length := by omega
    rw [h6, h7]
    have h8 : List.drop (stem.length + 1) (stem ++ '.' :: e) = e := by
      rw [List.drop_append_eq_append_drop]
      simp
    rw [h8, List.take_length]
  · rw [extension_eq, lastIndexOf_dot_append stem e he, Int.toNat_ofNat, List.take_left' rfl]

/-- On a path whose last dot is followed by a dot-free extension, `extension`
replaces that extension and nothing else. -/
theorem extension_dotted (stem e ext : Str) (he : '.' ∉ e) :
    extension (stem ++ '.' :: e) ext = stem ++ '.' :: ext := by
  rw [extension_eq, lastIndexOf_dot_append stem e he, Int.toNat_ofNat, List.take_left' rfl]

/-- C1, at a path without a dot: the ext `render` returns for
`resources/static/LICENSE` is the whole path, and `extension` under that ext
turns `public_html/static/LICENSE` into `.resources/static/LICENSE`. -/
theorem render_ext_without_dot {ε : Type} (md : Str → Str)
    (sassRender : Str → Bool → Except ε Str) (template contents : Str) :
    render md sassRender template "resources/static/LICENSE".toList none contents
        = .ok ⟨"resources/static/LICENSE".toList, contents⟩
      ∧ extension "public_html/static/LICENSE".toList "resources/static/LICENSE".toList
        = ".resources/static/LICENSE".toList := by
  constructor
  · rfl
  · decide

/-! ## `processDir`: the path that is written -/

/-- C5, at the entry `README` of the directory `content`: the file is written to
`.resources/content/README`, not to `public_html/content/README`. -/
theorem processEntry_without_dot {ε : Type} (md : Str → Str)
    (sassRender : Str → Bool → Except ε Str) (template contents : Str) :
    processEntry md sassRender template "content".toList "README".toList false contents
      = .write ".resources/content/README".toList contents := by
  rfl

/-! ## The challenge index -/

/-- The source of the index is the head, the line end and then the items in
manifest order, with nothing between two items. -/
theorem challengeIndex_eq (eol : Str) (challenges : List Str) :
    challengeIndex eol challenges
      = challengeIndexHead ++ eol
        ++ (challenges.map fun challenge =>
            "- [".toList ++ challenge ++ "](/challenges/".toList ++ challenge ++ "/)".toList).flatten := by
  unfold challengeIndex
  generalize challengeIndexHead ++ eol = start
  induction challenges generalizing start with
  | nil => simp
  | cons c t ih =>
    rw [List.foldl_cons, ih]
    simp

set_option maxRecDepth 100000 in
/-- C6, at the ids 1 and 2: both items stand on one line of the Markdown source,
so the second item does not begin a line. -/
theorem challengeIndex_two :
    challengeIndex lf ["1".toList, "2".toList]
        = ("(!--title Previous Challenges--)\n    # Previous Challenges\n"
            ++ "    Here's all the previous challenges and their results:\n"
            ++ "- [1](/challenges/1/)- [2](/challenges/2/)").toList
      ∧ ¬ (lf ++ "- [2](/challenges/2/)".toList) <:+: challengeIndex lf ["1".toList, "2".toList] := by
  constructor
  · decide
  · rw [show challengeIndex lf ["1".toList, "2".toList]
        = ("(!--title Previous Challenges--)\n    # Previous Challenges\n"
            ++ "    Here's all the previous challenges and their results:\n"
            ++ "- [1](/challenges/1/)- [2](/challenges/2/)").toList from by decide]
    decide

/-! ## `wrapTemplate`: a dollar sign in the content -/

/-- C8, at the content `Price: $$5`, which holds no title marker: the output is
not the template with the placeholder replaced by that content, one dollar sign
is lost. -/
theorem wrapTemplate_dollar :
    execTitle "Price: $$5".toList = none
      ∧ wrapTemplate "<body><!--place-content-here--></body>".toList "Price: $$5".toList
        = "<body>Price: $5</body>".toList
      ∧ wrapTemplate "<body><!--place-content-here--></body>".toList "Price: $$5".toList
        ≠ "<body>".toList ++ "Price: $$5".toList ++ "</body>".toList := by
  refine ⟨by decide, by decide, by decide⟩

/-! ## `processDir`: errors -/

/-- C9 as stated fails: when `readdir` fails, and when `mkdir` fails with a code
other than `EEXIST`, the promise of `processDir` is fulfilled, not rejected. -/
theorem processDir_not_rejected :
    (processDir "content".toList (.error ⟨"ENOENT".toList⟩) (.ok ())).settled = .ok ()
      ∧ (processDir "content".toList (.ok ["a.md".toList]) (.error ⟨"EACCES".toList⟩)).settled
        = .ok () := by
  constructor <;> rfl

/-- C9, amended: an `EEXIST` from `mkdir` is suppressed and every entry is visited;
any other error of `mkdir`, and any error of `readdir`, is caught by the final
handler: no entry is visited, the error is logged, and the promise `processDir`
returns is fulfilled. -/
theorem processDir_errors (dir : Str) (files : List Str) (e : FsError) :
    (e.code = "EEXIST".toList →
        processDir dir (.ok files) (.error e)
          = { visited := files.map fun filename => pathJoin ["resources".toList, dir, filename]
              logged := []
              settled := .ok () })
      ∧ (e.code ≠ "EEXIST".toList →
        processDir dir (.ok files) (.error e)
          = { visited := [], logged := [e], settled := .ok () })
      ∧ (∀ mkdir, processDir dir (.error e) mkdir
          = { visited := [], logged := [e], settled := .ok () }) := by
  refine ⟨fun h => ?_, fun h => ?_, fun mkdir => rfl⟩
  · unfold processDir
    dsimp only
    rw [if_neg (not_not.mpr h)]
  · unfold processDir
    dsimp only
    rw [if_pos h]

/-- Witness of C9 at the directory `content` with the one entry `a.md`. -/
theorem processDir_errors_witness :
    (processDir "content".toList (.ok ["a.md".toList]) (.error ⟨"EEXIST".toList⟩)).visited
        = ["resources/content/a.md".toList]
      ∧ (processDir "content".toList (.ok ["a.md".toList]) (.error ⟨"EACCES".toList⟩)).logged
        = [⟨"EACCES".toList⟩] := by
  have h := processDir_errors "content".toList ["a.md".toList]
  constructor
  · rw [(h ⟨"EEXIST".toList⟩).1 rfl]
    decide
  · rw [(h ⟨"EACCES".toList⟩).2.1 (by decide)]

/-! ## Searching a string -/

/-- The result of `splitFirst` splits the string around one occurrence. -/
theorem splitFirst_eq_append (pat : Str) :
    ∀ (s a b : Str), splitFirst pat s = some (a, b) → s = a ++ pat ++ b := by
  intro s
  induction s with
  | nil =>
    intro a b h
    unfold splitFirst at h
    split at h
    · rename_i hp
      simp only [Option.some.injEq, Prod.mk.injEq] at h
      rw [← h.1, ← h.2, hp]; rfl
    · exact absurd h (by simp)
  | cons c t ih =>
    intro a b h
    unfold splitFirst at h
    split at h
    · rename_i hp
      simp only [Option.some.injEq, Prod.mk.injEq] at h
      rw [List.isPrefixOf_iff_prefix, List.prefix_iff_eq_append] at hp
      rw [← h.1, ← h.2, List.nil_append, hp]
    · cases hr : splitFirst pat t with
      | none => rw [hr] at h; exact absurd h (by simp)
      | some r =>
        obtain ⟨a1, b1⟩ := r
        rw [hr] at h
        simp only [Option.map_some', Option.some.injEq, Prod.mk.injEq] at h
        rw [← h.1, ← h.2, ih a1 b1 hr]
        simp

/-- The search fails exactly when the pattern does not occur. -/
theorem splitFirst_eq_none_iff (pat : Str) :
    ∀ s : Str, splitFirst pat s = none ↔ ¬ pat <:+: s := by
  intro s
  induction s with
  | nil =>
    unfold splitFirst
    by_cases hp : pat = []
    · simp [hp]
    · simp [hp]
  | cons c t ih =>
    unfold splitFirst
    rw [List.infix_cons_iff]
    by_cases hp : pat.isPrefixOf (c :: t) = true
    · rw [if_pos hp]
      rw [List.isPrefixOf_iff_prefix] at hp
      simp [hp]
    · rw [if_neg hp]
      rw [List.isPrefixOf_iff_prefix] at hp
      simp only [Option.map_eq_none', ih, hp, false_or]

/-- A pattern that occurs is found. -/
theorem splitFirst_of_occurs (pat s : Str) (h : pat <:+: s) :
    ∃ a b, splitFirst pat s = some (a, b) := by
  cases hr : splitFirst pat s with
  | none => exact absurd h ((splitFirst_eq_none_iff pat s).mp hr)
  | some r => exact ⟨r.1, r.2, rfl⟩

/-- The first occurrence stays the first one when text is appended. -/
theorem splitFirst_append (pat : Str) :
    ∀ (s a b x : Str), splitFirst pat s = some (a, b) →
      splitFirst pat (s ++ x) = some (a, b ++ x) := by
  intro s
  induction s with
  | nil =>
    intro a b x h
    unfold splitFirst at h
    split at h
    · rename_i hp
      simp only [Option.some.injEq, Prod.mk.injEq] at h
      rw [← h.1, ← h.2, hp]
      cases x with
      | nil => simp [splitFirst]
      | cons d u => simp [splitFirst]
    · exact absurd h (by simp)
  | cons c t ih =>
    intro a b x h
    rw [List.cons_append]
    unfold splitFirst at h ⊢
    by_cases hp : pat.isPrefixOf (c :: t) = true
    · rw [if_pos hp] at h
      simp only [Option.some.injEq, Prod.mk.injEq] at h
      rw [List.isPrefixOf_iff_prefix] at hp
      have hp2 : pat.isPrefixOf (c :: (t ++ x)) = true := by
        rw [List.isPrefixOf_iff_prefix, ← List.cons_append]
        exact hp.trans (List.prefix_append _ _)
      rw [if_pos hp2, ← h.1, ← h.2, ← List.cons_append,
        List.drop_append_of_le_length hp.length_le]
    · rw [if_neg hp] at h
      cases hr : splitFirst pat t with
      | none => rw [hr] at h; exact absurd h (by simp)
      | some r =>
        obtain ⟨a1, b1⟩ := r
        rw [hr] at h
        simp only [Option.map_some', Option.some.injEq, Prod.mk.injEq] at h
        have hlen : pat.length ≤ t.length := by
          have := congrArg List.length (splitFirst_eq_append pat t a1 b1 hr)
          simp at this
          omega
        have hp2 : ¬ pat.isPrefixOf (c :: (t ++ x)) = true := by
          intro hq
          apply hp
          rw [List.isPrefixOf_iff_prefix] at hq ⊢
          rw [← List.cons_append] at hq
          exact List.prefix_of_prefix_length_le hq (List.prefix_append _ _)
            (by simp; omega)
        rw [if_neg hp2, ih a1 b1 x hr, ← h.1, ← h.2]
        rfl

/-- An occurrence of `p` in `a ++ b` lies in `a`, lies in `b`, or is split by the
seam into a non-empty end of `a` and a non-empty beginning of `b`. -/
theorem infix_append_cases (p a b : Str) (h : p <:+: a ++ b) :
    p <:+: a ∨ p <:+: b
      ∨ ∃ u v, u ≠ [] ∧ v ≠ [] ∧ u ++ v = p ∧ u <:+ a ∧ v <+: b := by
  obtain ⟨s, t, hst⟩ := h
  rw [List.append_eq_append_iff] at hst
  rcases hst with ⟨a1, h1, _⟩ | ⟨c1, h1, h2⟩
  · left
    rw [h1]
    exact ⟨s, a1, rfl⟩
  · rw [List.append_eq_append_iff] at h1
    rcases h1 with ⟨x, hx1, hx2⟩ | ⟨y, hy1, hy2⟩
    · -- a = s ++ x, p = x ++ c1
      by_cases hx : x = []
      · subst hx
        right; left
        rw [List.nil_append] at hx2
        rw [h2, hx2]
        exact ⟨[], t, by simp⟩
      · by_cases hc1 : c1 = []
        · subst hc1
          left
          rw [List.append_nil] at hx2
          rw [hx1, hx2]
          exact ⟨s, [], by simp⟩
        · right; right
          exact ⟨x, c1, hx, hc1, hx2.symm, ⟨s, hx1.symm⟩, ⟨t, h2.symm⟩⟩
    · right; left
      rw [h2, hy2]
      exact ⟨y, t, by simp⟩

/-- A text that cannot be completed across either seam does not arise from
putting `h` between `pre` and `post`. -/
theorem not_infix_insert (p pre h post : Str)
    (hpre : ¬ p <:+: pre) (hh : ¬ p <:+: h) (hpost : ¬ p <:+: post)
    (hj1 : ∀ u v, u ++ v = p → u ≠ [] → v ≠ [] → ¬ u <:+ pre)
    (hj2 : ∀ u v, u ++ v = p → u ≠ [] → v ≠ [] → ¬ v <+: post) :
    ¬ p <:+: pre ++ h ++ post := by
  intro hc
  rw [List.append_assoc] at hc
  rcases infix_append_cases p pre (h ++ post) hc with h1 | h1 | ⟨u, v, hu, hv, huv, hs, _⟩
  · exact hpre h1
  · rcases infix_append_cases p h post h1 with h2 | h2 | ⟨u, v, hu, hv, huv, _, hp⟩
    · exact hh h2
    · exact hpost h2
    · exact hj2 u v huv hu hv hp
  · exact hj1 u v huv hu hv hs

/-! ## The replacement text -/

/-- A replacement text without a dollar sign is inserted as it is. -/
theorem getSubstitution_of_no_dollar (matched before after : Str) :
    ∀ r : Str, '$' ∉ r → getSubstitution matched before after r = r := by
  intro r
  induction r using getSubstitution.induct matched before after with
  | case1 => intro _; rfl
  | case2 c => intro _; rfl
  | case3 t2 _ => intro h; exact absurd (List.mem_cons_self _ _) h
  | case4 t2 _ _ => intro h; exact absurd (List.mem_cons_self _ _) h
  | case5 t2 _ _ _ => intro h; exact absurd (List.mem_cons_self _ _) h
  | case6 t2 _ _ _ _ => intro h; exact absurd (List.mem_cons_self _ _) h
  | case7 d t2 _ _ _ _ _ => intro h; exact absurd (List.mem_cons_self _ _) h
  | case8 c d t2 hc ih =>
    intro h
    rw [getSubstitution, if_neg hc, ih (fun m => h (List.mem_cons_of_mem _ m))]

/-- A replacement text followed by text that holds no dollar sign and does not
begin with the second character of a pattern: the appended text is copied. -/
theorem getSubstitution_append (matched before after y : Str) (hy : '$' ∉ y)
    (hhead : ∀ y0 ∈ y.head?, y0 ≠ graveAccent ∧ y0 ≠ '&' ∧ y0 ≠ apostrophe) :
    ∀ x : Str, getSubstitution matched before after (x ++ y)
      = getSubstitution matched before after x ++ y := by
  intro x
  induction x using getSubstitution.induct matched before after with
  | case1 => exact getSubstitution_of_no_dollar matched before after y hy
  | case2 c =>
    cases y with
    | nil => rfl
    | cons y0 y1 =>
      have h0 : y0 ≠ '$' := fun e => hy (by simp [e])
      obtain ⟨h1, h2, h3⟩ := hhead y0 (by simp)
      have hrest := getSubstitution_of_no_dollar matched before after (y0 :: y1) hy
      show getSubstitution matched before after (c :: y0 :: y1) = c :: y0 :: y1
      rw [getSubstitution]
      by_cases hc : c = '$'
      · rw [if_pos hc, if_neg h0, if_neg h1, if_neg h2, if_neg h3, hrest]
      · rw [if_neg hc, hrest]
  | case3 t2 ih =>
    show getSubstitution matched before after ('$' :: '$' :: (t2 ++ y)) = _
    rw [getSubstitution, getSubstitution, ih]
    simp
  | case4 t2 h1 ih =>
    show getSubstitution matched before after ('$' :: graveAccent :: (t2 ++ y)) = _
    rw [getSubstitution, getSubstitution, ih]
    simp [h1]
  | case5 t2 h1 h2 ih =>
    show getSubstitution matched before after ('$' :: '&' :: (t2 ++ y)) = _
    rw [getSubstitution, getSubstitution, ih]
    simp [h1, h2]
  | case6 t2 h1 h2 h3 ih =>
    show getSubstitution matched before after ('$' :: apostrophe :: (t2 ++ y)) = _
    rw [getSubstitution, getSubstitution, ih]
    simp [h1, h2, h3]
  | case7 d t2 h1 h2 h3 h4 ih =>
    show getSubstitution matched before after ('$' :: d :: (t2 ++ y)) = _
    rw [getSubstitution, getSubstitution]
    simp only [↓reduceIte, if_neg h1, if_neg h2, if_neg h3, if_neg h4]
    rw [← List.cons_append, ih]
    rfl
  | case8 c d t2 hc ih =>
    show getSubstitution matched before after (c :: d :: (t2 ++ y)) = _
    rw [getSubstitution, getSubstitution, if_neg hc, if_neg hc, ← List.cons_append, ih]
    rfl

/-! ## The title expression -/

/-- What a successful match of the tail of the expression consumed. -/
theorem closer_spec (t rest : Str) (h : closer t = some rest) :
    ∃ c, (c = '>' ∨ c = ')') ∧ t = '-' :: '-' :: c :: rest := by
  match t, h with
  | [], h => exact absurd h (by simp [closer])
  | [_], h => exact absurd h (by simp [closer])
  | [_, _], h => exact absurd h (by simp [closer])
  | a :: b :: c :: r, h =>
    rw [closer] at h
    by_cases hc : a = '-' ∧ b = '-' ∧ (c = '>' ∨ c = ')')
    · rw [if_pos hc] at h
      simp only [Option.some.injEq] at h
      exact ⟨c, hc.2.2, by rw [hc.1, hc.2.1, h]⟩
    · rw [if_neg hc] at h
      exact absurd h (by simp)

/-- The tail of the expression matches at `--` followed by a closing bracket. -/
theorem closer_intro (c : Char) (rest : Str) (hc : c = '>' ∨ c = ')') :
    closer ('-' :: '-' :: c :: rest) = some rest := by
  rw [closer, if_pos ⟨rfl, rfl, hc⟩]

/-- What a successful match of the lazy group consumed. -/
theorem lazyGroup_spec :
    ∀ (s acc g rest : Str), lazyGroup acc s = some (g, rest) →
      ∃ g1 c, g = acc ++ g1 ∧ g1 ≠ [] ∧ (∀ x ∈ g1, isLineTerminator x = false)
        ∧ (c = '>' ∨ c = ')') ∧ s = g1 ++ '-' :: '-' :: c :: rest := by
  intro s
  induction s with
  | nil => intro acc g rest h; exact absurd h (by simp [lazyGroup])
  | cons ch t ih =>
    intro acc g rest h
    unfold lazyGroup at h
    by_cases hl : isLineTerminator ch = true
    · rw [if_pos hl] at h; exact absurd h (by simp)
    · rw [if_neg hl] at h
      have hl2 : isLineTerminator ch = false := by simpa using hl
      cases hcl : closer t with
      | some r =>
        rw [hcl] at h
        simp only [Option.some.injEq, Prod.mk.injEq] at h
        obtain ⟨c, hc, ht⟩ := closer_spec t r hcl
        refine ⟨[ch], c, h.1.symm, by simp, ?_, hc, ?_⟩
        · intro x hx
          rw [List.mem_singleton] at hx
          rw [hx]; exact hl2
        · rw [ht, h.2]; rfl
      | none =>
        rw [hcl] at h
        obtain ⟨g1, c, hg, _, hlt, hc, ht⟩ := ih (acc ++ [ch]) g rest h
        refine ⟨ch :: g1, c, by rw [hg]; simp, by simp, ?_, hc, by rw [ht]; rfl⟩
        intro x hx
        rcases List.mem_cons.mp hx with hx | hx
        · rw [hx]; exact hl2
        · exact hlt x hx

/-- What a successful match of the title expression consumed: an opening bracket,
`!--title`, a non-empty group without line terminator, `--` and a closing bracket. -/
theorem matchAt_spec (s g rest : Str) (h : matchAt s = some (g, rest)) :
    ∃ o c, (o = '<' ∨ o = '(') ∧ (c = '>' ∨ c = ')') ∧ g ≠ []
      ∧ (∀ x ∈ g, isLineTerminator x = false)
      ∧ s = o :: (titleCore ++ (g ++ '-' :: '-' :: c :: rest)) := by
  cases s with
  | nil => exact absurd h (by simp [matchAt])
  | cons o t =>
    rw [matchAt] at h
    by_cases hc : (o = '<' ∨ o = '(') ∧ titleCore.isPrefixOf t = true
    · rw [if_pos hc] at h
      obtain ⟨g1, c, hg, hne, hlt, hcc, ht⟩ := lazyGroup_spec _ _ _ _ h
      rw [List.nil_append] at hg
      subst hg
      have hp : titleCore <+: t := List.isPrefixOf_iff_prefix.mp hc.2
      refine ⟨o, c, hc.1, hcc, hne, hlt, ?_⟩
      rw [← ht]
      congr 1
      exact (List.prefix_iff_eq_append.mp hp).symm
    · rw [if_neg hc] at h
      exact absurd h (by simp)

/-- A match is shorter than the text it is found in. -/
theorem matchAt_rest_suffix (c : Char) (t g rest : Str) (h : matchAt (c :: t) = some (g, rest)) :
    ∃ x, t = x ++ rest := by
  obtain ⟨o, c2, _, _, _, _, hs⟩ := matchAt_spec _ _ _ h
  simp only [List.cons.injEq] at hs
  exact ⟨titleCore ++ (g ++ ['-', '-', c2]), by rw [hs.2]; simp⟩

/-- Skipping `k` characters and scanning on is scanning what is left after them. -/
theorem stripFrom_drop : ∀ (s : Str) (k : Nat), stripFrom k s = stripFrom 0 (s.drop k) := by
  intro s
  induction s with
  | nil => intro k; cases k <;> rfl
  | cons c t ih =>
    intro k
    cases k with
    | zero => rfl
    | succ k => rw [stripFrom, List.drop_succ_cons, ih]

/-- Where the expression matches, the match is deleted and the scan goes on behind it. -/
theorem stripTitles_of_match (s g rest : Str) (h : matchAt s = some (g, rest)) :
    stripTitles s = stripTitles rest := by
  cases s with
  | nil => exact absurd h (by simp [matchAt])
  | cons c t =>
    obtain ⟨x, hx⟩ := matchAt_rest_suffix c t g rest h
    unfold stripTitles
    rw [stripFrom, h]
    show stripFrom (t.length - rest.length) t = _
    rw [stripFrom_drop, hx]
    congr 1
    rw [List.length_append, Nat.add_sub_cancel, List.drop_left]

/-- Where the expression does not match, the character is kept. -/
theorem stripTitles_of_no_match (c : Char) (t : Str) (h : matchAt (c :: t) = none) :
    stripTitles (c :: t) = c :: stripTitles t := by
  unfold stripTitles
  rw [stripFrom, h]

/-- The empty string is left as it is. -/
theorem stripTitles_nil : stripTitles [] = [] := rfl

/-- Whether `p` begins a text is decided before the first character foreign to `p`. -/
theorem isPrefixOf_append_cons (c : Char) (y : Str) :
    ∀ (p t : Str), c ∉ p → p.isPrefixOf (t ++ c :: y) = p.isPrefixOf t := by
  intro p
  induction p with
  | nil => intro t _; simp [List.isPrefixOf]
  | cons a p ih =>
    intro t hc
    have hac : a ≠ c := fun e => hc (by simp [e])
    have hp : c ∉ p := fun m => hc (List.mem_cons_of_mem _ m)
    cases t with
    | nil => simp [List.isPrefixOf, hac]
    | cons b t =>
      show (a == b && p.isPrefixOf (t ++ c :: y)) = (a == b && p.isPrefixOf t)
      rw [ih t hp]

/-- The tail of the expression matches the same way when text is appended. -/
theorem closer_append (t rest z : Str) (h : closer t = some rest) :
    closer (t ++ z) = some (rest ++ z) := by
  obtain ⟨c, hc, ht⟩ := closer_spec t rest h
  rw [ht]
  exact closer_intro c (rest ++ z) hc

/-- With three characters to look at, a failure of the tail stays one. -/
theorem closer_append_none (t z : Str) (h : closer t = none) (hl : 3 ≤ t.length) :
    closer (t ++ z) = none := by
  match t, h, hl with
  | a :: b :: c :: r, h, _ =>
    rw [closer] at h
    show closer (a :: b :: c :: (r ++ z)) = none
    rw [closer]
    by_cases hc : a = '-' ∧ b = '-' ∧ (c = '>' ∨ c = ')')
    · rw [if_pos hc] at h; exact absurd h (by simp)
    · rw [if_neg hc]

/-- The lazy group matches the same way when text is appended. -/
theorem lazyGroup_append (z : Str) :
    ∀ (s acc g rest : Str), lazyGroup acc s = some (g, rest) →
      lazyGroup acc (s ++ z) = some (g, rest ++ z) := by
  intro s
  induction s with
  | nil => intro acc g rest h; exact absurd h (by simp [lazyGroup])
  | cons ch t ih =>
    intro acc g rest h
    rw [lazyGroup] at h
    rw [List.cons_append, lazyGroup]
    by_cases hl : isLineTerminator ch = true
    · rw [if_pos hl] at h; exact absurd h (by simp)
    · rw [if_neg hl] at h
      rw [if_neg hl]
      cases hcl : closer t with
      | some r =>
        rw [hcl] at h
        simp only [Option.some.injEq, Prod.mk.injEq] at h
        rw [closer_append t r z hcl, h.1, h.2]
      | none =>
        rw [hcl] at h
        have hlen : 3 ≤ t.length := by
          obtain ⟨g1, c, _, _, _, _, ht⟩ := lazyGroup_spec _ _ _ _ h
          rw [ht]; simp; omega
        rw [closer_append_none t z hcl hlen]
        exact ih _ _ _ h

/-- The title expression matches the same way when text is appended. -/
theorem matchAt_append (s g rest z : Str) (h : matchAt s = some (g, rest)) :
    matchAt (s ++ z) = some (g, rest ++ z) := by
  cases s with
  | nil => exact absurd h (by simp [matchAt])
  | cons o t =>
    rw [matchAt] at h
    rw [List.cons_append, matchAt]
    by_cases hc : (o = '<' ∨ o = '(') ∧ titleCore.isPrefixOf t = true
    · rw [if_pos hc] at h
      have hp : titleCore <+: t := List.isPrefixOf_iff_prefix.mp hc.2
      have hc2 : (o = '<' ∨ o = '(') ∧ titleCore.isPrefixOf (t ++ z) = true :=
        ⟨hc.1, List.isPrefixOf_iff_prefix.mpr (hp.trans (List.prefix_append _ _))⟩
      rw [if_pos hc2, List.drop_append_of_le_length hp.length_le]
      exact lazyGroup_append z _ _ _ _ h
    · rw [if_neg hc] at h; exact absurd h (by simp)

/-- A text in which the expression does not match at the head has no prefix in
which it does. -/
theorem matchAt_none_of_append (s z : Str) (h : matchAt (s ++ z) = none) : matchAt s = none := by
  cases hm : matchAt s with
  | none => rfl
  | some r =>
    rw [matchAt_append s r.1 r.2 z hm] at h
    exact absurd h (by simp)

/-- Without `!--title` behind the head there is no match at the head. -/
theorem matchAt_none_of_no_core (s : Str) (h : ¬ titleCore <:+: s) : matchAt s = none := by
  cases s with
  | nil => rfl
  | cons o t =>
    rw [matchAt]
    by_cases hc : (o = '<' ∨ o = '(') ∧ titleCore.isPrefixOf t = true
    · exfalso
      apply h
      have hp : titleCore <+: t := List.isPrefixOf_iff_prefix.mp hc.2
      exact (List.infix_cons_iff).mpr (Or.inr hp.isInfix)
    · rw [if_neg hc]

/-- A text without `!--title` holds no title marker. -/
theorem execTitle_none_of_no_core : ∀ s : Str, ¬ titleCore <:+: s → execTitle s = none := by
  intro s
  induction s with
  | nil => intro _; rfl
  | cons c t ih =>
    intro h
    have ht : ¬ titleCore <:+: t := fun m => h ((List.infix_cons_iff).mpr (Or.inr m))
    rw [execTitle, matchAt_none_of_no_core _ h, ih ht]
    rfl

/-- A text without `!--title` is left as it is by the deletion of the markers. -/
theorem stripTitles_of_no_core : ∀ s : Str, ¬ titleCore <:+: s → stripTitles s = s := by
  intro s
  induction s with
  | nil => intro _; rfl
  | cons c t ih =>
    intro h
    have ht : ¬ titleCore <:+: t := fun m => h ((List.infix_cons_iff).mpr (Or.inr m))
    rw [stripTitles_of_no_match c t (matchAt_none_of_no_core _ h), ih ht]

/-- In front of an opening bracket, a text without `!--title` holds no beginning of
a match. -/
theorem matchAt_none_in_front (o : Char) (w : Str) (ho : o = '<' ∨ o = '(') (c : Char) (t : Str)
    (h : ¬ titleCore <:+: c :: t) : matchAt (c :: t ++ o :: w) = none := by
  rw [List.cons_append, matchAt]
  have hoc : o ∉ titleCore := by
    rcases ho with ho | ho <;> subst ho <;> decide
  rw [isPrefixOf_append_cons o w titleCore t hoc]
  by_cases hc : (c = '<' ∨ c = '(') ∧ titleCore.isPrefixOf t = true
  · exfalso
    apply h
    have hp : titleCore <+: t := List.isPrefixOf_iff_prefix.mp hc.2
    exact (List.infix_cons_iff).mpr (Or.inr hp.isInfix)
  · rw [if_neg hc]

/-- The search for the first marker passes over a text without `!--title` that
stands in front of a match. -/
theorem execTitle_in_front (o : Char) (w g rest : Str) (ho : o = '<' ∨ o = '(')
    (hm : matchAt (o :: w) = some (g, rest)) :
    ∀ h1 : Str, ¬ titleCore <:+: h1 → execTitle (h1 ++ o :: w) = some (h1, g, rest) := by
  intro h1
  induction h1 with
  | nil =>
    intro _
    rw [List.nil_append, execTitle, hm]
  | cons c t ih =>
    intro h
    have ht : ¬ titleCore <:+: t := fun m => h ((List.infix_cons_iff).mpr (Or.inr m))
    have := matchAt_none_in_front o w ho c t h
    rw [List.cons_append] at this
    rw [List.cons_append, execTitle, this, ih ht]
    rfl

/-- The deletion of the markers passes over a text without `!--title` that stands
in front of an opening bracket. -/
theorem stripTitles_in_front (o : Char) (w : Str) (ho : o = '<' ∨ o = '(') :
    ∀ h1 : Str, ¬ titleCore <:+: h1 → stripTitles (h1 ++ o :: w) = h1 ++ stripTitles (o :: w) := by
  intro h1
  induction h1 with
  | nil => intro _; rfl
  | cons c t ih =>
    intro h
    have ht : ¬ titleCore <:+: t := fun m => h ((List.infix_cons_iff).mpr (Or.inr m))
    have := matchAt_none_in_front o w ho c t h
    rw [List.cons_append] at this
    rw [List.cons_append, stripTitles_of_no_match c _ this, ih ht]
    rfl

/-- No character of a title marker outside its group is a line terminator. -/
theorem not_lineTerminator_fixed (nl : Char) (h : isLineTerminator nl = true) :
    nl ≠ '-' ∧ nl ≠ '>' ∧ nl ≠ ')' ∧ nl ≠ '<' ∧ nl ≠ '(' ∧ nl ∉ titleCore := by
  refine ⟨?_, ?_, ?_, ?_, ?_, ?_⟩
  · rintro rfl; exact absurd h (by decide)
  · rintro rfl; exact absurd h (by decide)
  · rintro rfl; exact absurd h (by decide)
  · rintro rfl; exact absurd h (by decide)
  · rintro rfl; exact absurd h (by decide)
  · intro hm
    have : ∀ x ∈ titleCore, isLineTerminator x = false := by decide
    rw [this nl hm] at h
    exact absurd h (by simp)

/-- The tail of the expression does not match across a line terminator. -/
theorem closer_barrier_none (nl : Char) (y : Str) (hnl : isLineTerminator nl = true)
    (t : Str) (h : closer t = none) : closer (t ++ nl :: y) = none := by
  obtain ⟨h1, h2, h3, _, _, _⟩ := not_lineTerminator_fixed nl hnl
  match t, h with
  | [], _ =>
    match y with
    | [] => rfl
    | [_] => rfl
    | b :: c :: r =>
      show closer (nl :: b :: c :: r) = none
      rw [closer, if_neg (fun hc => h1 hc.1)]
  | [a], _ =>
    match y with
    | [] => rfl
    | c :: r =>
      show closer (a :: nl :: c :: r) = none
      rw [closer, if_neg (fun hc => h1 hc.2.1)]
  | [a, b], _ =>
    show closer (a :: b :: nl :: y) = none
    rw [closer, if_neg (fun hc => hc.2.2.elim h2 h3)]
  | a :: b :: c :: r, h => exact closer_append_none _ _ h (by simp)

/-- The lazy group does not match across a line terminator. -/
theorem lazyGroup_barrier_none (nl : Char) (y : Str) (hnl : isLineTerminator nl = true) :
    ∀ (u acc : Str), lazyGroup acc u = none → lazyGroup acc (u ++ nl :: y) = none := by
  intro u
  induction u with
  | nil =>
    intro acc _
    rw [List.nil_append, lazyGroup, if_pos hnl]
  | cons ch t ih =>
    intro acc h
    rw [lazyGroup] at h
    rw [List.cons_append, lazyGroup]
    by_cases hl : isLineTerminator ch = true
    · rw [if_pos hl]
    · rw [if_neg hl] at h
      rw [if_neg hl]
      cases hcl : closer t with
      | some r => rw [hcl] at h; exact absurd h (by simp)
      | none =>
        rw [hcl] at h
        rw [closer_barrier_none nl y hnl t hcl]
        exact ih _ h

/-- The title expression does not match across a line terminator. -/
theorem matchAt_barrier_none (nl : Char) (y : Str) (hnl : isLineTerminator nl = true)
    (x : Str) (h : matchAt x = none) : matchAt (x ++ nl :: y) = none := by
  obtain ⟨_, _, _, h4, h5, h6⟩ := not_lineTerminator_fixed nl hnl
  cases x with
  | nil =>
    rw [List.nil_append, matchAt, if_neg (fun hc => hc.1.elim h4 h5)]
  | cons o t =>
    rw [matchAt] at h
    rw [List.cons_append, matchAt, isPrefixOf_append_cons nl y titleCore t h6]
    by_cases hc : (o = '<' ∨ o = '(') ∧ titleCore.isPrefixOf t = true
    · rw [if_pos hc] at h
      have hp : titleCore <+: t := List.isPrefixOf_iff_prefix.mp hc.2
      rw [if_pos hc, List.drop_append_of_le_length hp.length_le]
      exact lazyGroup_barrier_none nl y hnl _ _ h
    · rw [if_neg hc]

/-- The deletion of the markers works line by line: a line terminator is kept and
the texts on its two sides are treated independently. -/
theorem stripTitles_barrier (nl : Char) (y : Str) (hnl : isLineTerminator nl = true) :
    ∀ (n : Nat) (x : Str), x.length ≤ n →
      stripTitles (x ++ nl :: y) = stripTitles x ++ nl :: stripTitles y := by
  intro n
  induction n with
  | zero =>
    intro x hx
    have hx0 : x = [] := List.length_eq_zero.mp (Nat.le_zero.mp hx)
    subst hx0
    have := matchAt_barrier_none nl y hnl [] rfl
    rw [List.nil_append] at this ⊢
    rw [stripTitles_of_no_match nl y this]
    rfl
  | succ n ih =>
    intro x hx
    cases x with
    | nil => exact ih [] (Nat.zero_le _)
    | cons c t =>
      cases hm : matchAt (c :: t) with
      | none =>
        have := matchAt_barrier_none nl y hnl (c :: t) hm
        rw [List.cons_append] at this
        rw [List.cons_append, stripTitles_of_no_match c _ this, stripTitles_of_no_match c t hm,
          ih t (by simpa using hx)]
        rfl
      | some r =>
        obtain ⟨g, rest⟩ := r
        obtain ⟨u, hu⟩ := matchAt_rest_suffix c t g rest hm
        have hlen : rest.length ≤ n := by
          have := congrArg List.length hu
          simp at this hx
          omega
        rw [stripTitles_of_match _ g _ (matchAt_append _ g rest (nl :: y) hm),
          stripTitles_of_match _ g rest hm, ih rest hlen]

/-- A text without exclamation mark that does not end in an opening bracket is
kept by the deletion of the markers, whatever follows it. -/
theorem stripTitles_frame (z : Str) :
    ∀ s : Str, '!' ∉ s → (∀ l ∈ s.getLast?, l ≠ '<' ∧ l ≠ '(') →
      stripTitles (s ++ z) = s ++ stripTitles z := by
  intro s
  induction s with
  | nil => intro _ _; rfl
  | cons c t ih =>
    intro hs hl
    have hm : matchAt (c :: (t ++ z)) = none := by
      rw [matchAt]
      apply if_neg
      rintro ⟨ho, hp⟩
      cases t with
      | nil =>
        have := hl c (by simp)
        exact ho.elim this.1 this.2
      | cons d t2 =>
        have hd : d = '!' := by
          have hp2 : ('!' :: "--title".toList).isPrefixOf (d :: (t2 ++ z)) = true := hp
          rw [List.isPrefixOf] at hp2
          simp only [Bool.and_eq_true, beq_iff_eq] at hp2
          exact hp2.1.symm
        exact hs (by simp [hd])
    rw [List.cons_append, stripTitles_of_no_match c _ hm,
      ih (fun m => hs (List.mem_cons_of_mem _ m)) ?_]
    · rfl
    · intro l hlm
      cases t with
      | nil => simp at hlm
      | cons d t2 =>
        apply hl l
        rw [List.getLast?_cons_cons]
        exact hlm

/-! ## `path.join` keeps the last segment -/

/-- A path has at least one segment. -/
theorem splitSlash_ne_nil : ∀ s : Str, splitSlash s ≠ [] := by
  intro s
  induction s with
  | nil => simp [splitSlash]
  | cons c t ih =>
    rw [splitSlash]
    cases h : splitSlash t with
    | nil => simp
    | cons seg rest =>
      by_cases hc : c = '/'
      · simp [hc]
      · simp [hc]

/-- Splitting at a slash splits the list of segments. -/
theorem splitSlash_append_slash (y : Str) :
    ∀ x : Str, splitSlash (x ++ '/' :: y) = splitSlash x ++ splitSlash y := by
  intro x
  induction x with
  | nil =>
    rw [List.nil_append]
    conv_lhs => rw [splitSlash]
    cases h : splitSlash y with
    | nil => exact absurd h (splitSlash_ne_nil y)
    | cons seg rest => simp [splitSlash]
  | cons c t ih =>
    rw [List.cons_append, splitSlash, ih, splitSlash]
    cases h : splitSlash t with
    | nil => exact absurd h (splitSlash_ne_nil t)
    | cons seg rest =>
      by_cases hc : c = '/'
      · simp [hc]
      · simp [hc]

/-- A text without slash is one segment. -/
theorem splitSlash_of_no_slash : ∀ y : Str, '/' ∉ y → splitSlash y = [y] := by
  intro y
  induction y with
  | nil => intro _; rfl
  | cons c t ih =>
    intro h
    have hc : c ≠ '/' := fun e => h (by simp [e])
    rw [splitSlash, ih (fun m => h (List.mem_cons_of_mem _ m))]
    simp [hc]

/-- Joining segments of which the last is `l` gives a text that is `l`, or ends in
the separator followed by `l`. -/
theorem intercalate_snoc (sep l : Str) :
    ∀ xs : List Str, sep.intercalate (xs ++ [l])
      = if xs = [] then l else sep.intercalate xs ++ sep ++ l := by
  intro xs
  induction xs with
  | nil => simp [List.intercalate, List.intersperse]
  | cons x t ih =>
    cases t with
    | nil => simp [List.intercalate, List.intersperse]
    | cons y t2 =>
      have h2 : sep.intercalate ((y :: t2) ++ [l]) = sep.intercalate (y :: t2) ++ sep ++ l := by
        rw [ih]; simp
      have e1 : sep.intercalate (x :: y :: t2 ++ [l])
          = x ++ sep ++ sep.intercalate ((y :: t2) ++ [l]) := by
        simp [List.intercalate, List.intersperse]
      have e2 : sep.intercalate (x :: y :: t2) = x ++ sep ++ sep.intercalate (y :: t2) := by
        simp [List.intercalate, List.intersperse]
      rw [e1, h2, if_neg (by simp), e2]
      simp

/-- The segments of a joined path end with its last part when that has no slash. -/
theorem splitSlash_intercalate_snoc (l : Str) (hl : '/' ∉ l) (xs : List Str) :
    ∃ segs, splitSlash ("/".toList.intercalate (xs ++ [l])) = segs ++ [l] := by
  rw [intercalate_snoc]
  by_cases hx : xs = []
  · rw [if_pos hx]
    exact ⟨[], by rw [splitSlash_of_no_slash l hl]; rfl⟩
  · rw [if_neg hx]
    refine ⟨splitSlash ("/".toList.intercalate xs), ?_⟩
    have : "/".toList.intercalate xs ++ "/".toList ++ l = "/".toList.intercalate xs ++ '/' :: l := by
      simp
    rw [this, splitSlash_append_slash, splitSlash_of_no_slash l hl]

/-- `path.join` ends with its last argument when that is a plain file name: not
empty, without slash, and neither `.` nor `..`. -/
theorem pathJoin_last (args : List Str) (l : Str) (h0 : l ≠ []) (hl : '/' ∉ l)
    (h1 : l ≠ ".".toList) (h2 : l ≠ "..".toList) : l <:+ pathJoin (args ++ [l]) := by
  unfold pathJoin
  have hf : (args ++ [l]).filter (fun a => decide (a ≠ []))
      = args.filter (fun a => decide (a ≠ [])) ++ [l] := by
    rw [List.filter_append]
    simp [h0]
  rw [hf]
  generalize args.filter (fun a => decide (a ≠ [])) = xs
  have hne : xs ++ [l] ≠ [] := by simp
  have hm : (match xs ++ [l] with
      | [] => ".".toList
      | parts => normalize ("/".toList.intercalate parts))
      = normalize ("/".toList.intercalate (xs ++ [l])) := by
    cases hq : xs ++ [l] with
    | nil => exact absurd hq hne
    | cons a b => rfl
  rw [hm]
  obtain ⟨segs, hsegs⟩ := splitSlash_intercalate_snoc l hl xs
  have hjoined : ∃ p, "/".toList.intercalate (xs ++ [l]) = p ++ l := by
    rw [intercalate_snoc]
    by_cases hx : xs = []
    · exact ⟨[], by rw [if_pos hx]; rfl⟩
    · exact ⟨_, by rw [if_neg hx]⟩
  obtain ⟨p, hp⟩ := hjoined
  have hlast : ("/".toList.intercalate (xs ++ [l])).getLast? = l.getLast? := by
    rw [hp, List.getLast?_append_of_ne_nil _ h0]
  have hlast_ne : l.getLast? ≠ some '/' := by
    intro e
    exact hl (List.mem_of_getLast?_eq_some e)
  have hjne : "/".toList.intercalate (xs ++ [l]) ≠ [] := by
    rw [hp]; simp [h0]
  unfold normalize
  rw [if_neg hjne]
  simp only
  have hr : ∀ b, ∃ q, normalizeString ("/".toList.intercalate (xs ++ [l])) b = q ++ l := by
    intro b
    unfold normalizeString
    rw [hsegs, List.foldl_append]
    simp only [List.foldl_cons, List.foldl_nil]
    have hstep : ∀ stack, normStep b stack l = l :: stack := by
      intro stack
      unfold normStep
      rw [if_neg (fun h => h.elim h0 h1), if_neg h2]
    rw [hstep, List.reverse_cons, intercalate_snoc]
    split
    · exact ⟨[], rfl⟩
    · exact ⟨_, rfl⟩
  obtain ⟨q, hq⟩ := hr (!decide (("/".toList.intercalate (xs ++ [l])).head? = some '/'))
  rw [hq, hlast]
  have hql : q ++ l ≠ [] := by simp [h0]
  rw [if_neg hql]
  simp only [hlast_ne, decide_False, Bool.false_eq_true, ↓reduceIte, List.append_nil]
  exact ⟨_, by rw [List.append_assoc]⟩

/-! ## `wrapTemplate` -/

/-- A pattern is found at the head of a text that begins with it. -/
theorem splitFirst_head (pat post : Str) : splitFirst pat (pat ++ post) = some ([], post) := by
  cases h : pat ++ post with
  | nil =>
    obtain ⟨h1, h2⟩ := List.append_eq_nil.mp h
    rw [splitFirst, if_pos h1, h2]
  | cons c t =>
    have hp : pat.isPrefixOf (c :: t) = true := by
      rw [List.isPrefixOf_iff_prefix, ← h]
      exact List.prefix_append _ _
    rw [splitFirst, if_pos hp, ← h, List.drop_left]

/-- The occurrence behind `pre` is the first one when no end of `pre` begins an
earlier one. -/
theorem splitFirst_intro (pat post : Str) :
    ∀ pre : Str, (∀ s, s ≠ [] → s <:+ pre → ¬ pat <+: s ++ (pat ++ post)) →
      splitFirst pat (pre ++ (pat ++ post)) = some (pre, post) := by
  intro pre
  induction pre with
  | nil => intro _; exact splitFirst_head pat post
  | cons c t ih =>
    intro h
    have h1 : ¬ pat.isPrefixOf (c :: (t ++ (pat ++ post))) = true := by
      rw [List.isPrefixOf_iff_prefix]
      exact h (c :: t) (by simp) (List.suffix_refl _)
    have h2 : ∀ s, s ≠ [] → s <:+ t → ¬ pat <+: s ++ (pat ++ post) :=
      fun s hs hst => h s hs (hst.trans (List.suffix_cons c t))
    rw [List.cons_append, splitFirst, if_neg h1, ih h2]
    rfl

/-- A pattern that neither occurs in `pre` nor is begun by an end of `pre` is first
found behind `pre`. -/
theorem splitFirst_behind (pat pre post : Str) (hpre : ¬ pat <:+: pre)
    (hj : ∀ u v, u ++ v = pat → u ≠ [] → v ≠ [] → ¬ u <:+ pre) :
    splitFirst pat (pre ++ pat ++ post) = some (pre, post) := by
  rw [List.append_assoc]
  apply splitFirst_intro
  intro s hs hsuf hp
  by_cases hl : pat.length ≤ s.length
  · exact hpre ((List.prefix_of_prefix_length_le hp (List.prefix_append _ _) hl).isInfix.trans
      hsuf.isInfix)
  · have hsp : s <+: pat :=
      List.prefix_of_prefix_length_le (List.prefix_append _ _) hp (by omega)
    obtain ⟨v, hv⟩ := hsp
    refine hj s v hv hs ?_ hsuf
    intro hv0
    rw [hv0, List.append_nil] at hv
    rw [hv] at hl
    exact hl (le_refl _)

/-- Where the pattern does not occur, `replace` returns the string itself. -/
theorem replaceStr_of_none (s pat repl : Str) (h : splitFirst pat s = none) :
    replaceStr s pat repl = s := by
  unfold replaceStr
  rw [h]

/-- Where the pattern occurs, `replace` puts the expanded replacement text in the
place of its first occurrence. -/
theorem replaceStr_of_some (s pat repl before after : Str)
    (h : splitFirst pat s = some (before, after)) :
    replaceStr s pat repl = before ++ getSubstitution pat before after repl ++ after := by
  unfold replaceStr
  rw [h]

/-- Content without a dollar sign and without a title marker is put in the place
of the first content placeholder, and nothing else changes. -/
theorem wrapTemplate_plain (template pre post html : Str)
    (hs : splitFirst contentPlaceholder template = some (pre, post))
    (hd : '$' ∉ html) (ht : execTitle html = none) :
    wrapTemplate template html = pre ++ html ++ post := by
  unfold wrapTemplate replaceStr
  rw [ht, hs]
  simp only
  rw [getSubstitution_of_no_dollar _ _ _ html hd]

/-! ## The pages of a challenge -/

/-- An occurrence of a pattern in a text that holds a line terminator followed by
a block `s` lies before the line terminator or behind the block, when the pattern
holds no line terminator, its second character is not in `s` and `s` does not end
in its first character. -/
theorem occurrence_avoids_block (x y a s post p p2 : Str) (nl p0 p1 : Char)
    (hp : p = p0 :: p1 :: p2)
    (hnl : nl ∉ p) (hs : p1 ∉ s) (hlast : ∀ l ∈ s.getLast?, l ≠ p0)
    (h : x ++ p ++ y = a ++ nl :: (s ++ post)) :
    (∃ y1, y = y1 ++ nl :: (s ++ post)) ∨ (∃ x1, x = a ++ nl :: (s ++ x1)) := by
  rw [List.append_assoc] at h
  rcases List.append_eq_append_iff.mp h with ⟨a1, _, hpy⟩ | ⟨c1, hx, hd⟩
  · rcases List.append_eq_append_iff.mp hpy with ⟨a2, _, h2⟩ | ⟨c2, h1, h2⟩
    · exact Or.inl ⟨a2, h2⟩
    · cases c2 with
      | nil => exact Or.inl ⟨[], by rw [List.nil_append] at h2 ⊢; exact h2.symm⟩
      | cons d c3 =>
        exfalso
        simp only [List.cons_append, List.cons.injEq] at h2
        apply hnl
        rw [h1, h2.1]
        simp
  · cases c1 with
    | nil =>
      exfalso
      rw [List.nil_append, hp] at hd
      simp only [List.cons_append, List.cons.injEq] at hd
      exact hnl (by rw [hp, hd.1]; simp)
    | cons d c2 =>
      rw [List.cons_append, List.cons.injEq] at hd
      obtain ⟨hd1, hd2⟩ := hd
      rcases List.append_eq_append_iff.mp hd2 with ⟨a3, h1, _⟩ | ⟨c3, h1, h2⟩
      · refine Or.inr ⟨a3, ?_⟩
        rw [hx, ← hd1, h1]
      · rcases List.append_eq_append_iff.mp h2 with ⟨a4, h3, _⟩ | ⟨c4, h3, _⟩
        · exfalso
          apply hs
          rw [h1, h3, hp]
          simp
        · rw [hp] at h3
          match c3, h1, h3 with
          | [], h1, _ =>
            refine Or.inr ⟨[], ?_⟩
            rw [hx, ← hd1, h1]
            simp
          | [e], h1, h3 =>
            exfalso
            simp only [List.cons_append, List.nil_append, List.cons.injEq] at h3
            exact hlast e (by rw [h1]; simp) h3.1.symm
          | e :: f :: c5, h1, h3 =>
            exfalso
            simp only [List.cons_append, List.cons.injEq] at h3
            apply hs
            rw [h1, h3.2.1]
            simp

/-- Replacing the title placeholder leaves a block that follows a line terminator
in place, when the block has no exclamation mark and does not end in `<`. -/
theorem replaceStr_title_keeps_block (a s post repl : Str) (nl : Char)
    (hnl : isLineTerminator nl = true) (hs : '!' ∉ s) (hlast : ∀ l ∈ s.getLast?, l ≠ '<') :
    ∃ a1 post1, replaceStr (a ++ nl :: (s ++ post)) titlePlaceholder repl
      = a1 ++ nl :: (s ++ post1) := by
  unfold replaceStr
  cases hsp : splitFirst titlePlaceholder (a ++ nl :: (s ++ post)) with
  | none => exact ⟨a, post, rfl⟩
  | some r =>
    obtain ⟨x, y⟩ := r
    have heq := (splitFirst_eq_append _ _ _ _ hsp).symm
    have hnl2 : nl ∉ titlePlaceholder := by
      intro hm
      have : ∀ c ∈ titlePlaceholder, isLineTerminator c = false := by decide
      rw [this nl hm] at hnl
      exact absurd hnl (by simp)
    rcases occurrence_avoids_block x y a s post titlePlaceholder "--place-title-here-->".toList
        nl '<' '!' rfl hnl2 hs hlast heq with ⟨y1, hy⟩ | ⟨x1, hx⟩
    · refine ⟨x ++ getSubstitution titlePlaceholder x y repl ++ y1, post, ?_⟩
      simp only
      rw [hy]
      simp
    · refine ⟨a, x1 ++ getSubstitution titlePlaceholder x y repl ++ y, ?_⟩
      simp only
      rw [hx]
      simp

/-- The suffix of an index page begins with `<`. -/
theorem rulesSuffix_head (c : Str) : ∃ s, rulesSuffix c = '<' :: s := ⟨_, rfl⟩

/-- The characters of the suffix of an index page are those of its fixed text and
those of the challenge id. -/
theorem mem_rulesSuffix (c : Str) (x : Char) (hx : x ∈ rulesSuffix c) :
    x ∈ "<div><a href=\"/challenges//rules\">Official Rules</a></div>".toList ∨ x ∈ c := by
  unfold rulesSuffix rulesLink dquote at hx
  simp only [List.mem_append] at hx
  rcases hx with ((h | ((((((h | h) | h) | h) | h) | h) | h)) | h)
  · left; revert h; revert x; decide
  · left; revert h; revert x; decide
  · left; revert h; revert x; decide
  · left; revert h; revert x; decide
  · right; exact h
  · left; revert h; revert x; decide
  · left; revert h; revert x; decide
  · left; revert h; revert x; decide
  · left; revert h; revert x; decide

/-- The suffix of an index page ends with `>`. -/
theorem rulesSuffix_getLast (c : Str) : (rulesSuffix c).getLast? = some '>' := by
  unfold rulesSuffix
  rw [List.getLast?_append_of_ne_nil _ (by decide)]
  rfl

/-- The suffix of an index page holds the rules link. -/
theorem rulesLink_in_suffix (c : Str) : rulesLink c <:+: rulesSuffix c :=
  ⟨"<div>".toList, "</div>".toList, rfl⟩

/-- The first replacement of `wrapTemplate`, for a template that holds the content
placeholder. -/
theorem replaceStr_content (template pre post html : Str)
    (hs : splitFirst contentPlaceholder template = some (pre, post)) :
    replaceStr template contentPlaceholder html
      = pre ++ getSubstitution contentPlaceholder pre post html ++ post := by
  unfold replaceStr
  rw [hs]

/-- A line terminator is not a character of a replacement pattern. -/
theorem not_lineTerminator_pattern (nl : Char) (h : isLineTerminator nl = true) :
    nl ≠ '$' ∧ nl ≠ graveAccent ∧ nl ≠ '&' ∧ nl ≠ apostrophe := by
  refine ⟨?_, ?_, ?_, ?_⟩ <;>
    · rintro rfl
      exact absurd h (by decide)

/-- A block at the end of the content that begins with `<`, ends with `>`, holds
neither a dollar sign nor an exclamation mark and is preceded by nothing or by a
line terminator is found unchanged in the wrapped page. -/
theorem wrapTemplate_keeps_block (template m s : Str)
    (hc : contentPlaceholder <:+: template) (hhead : ∃ s1, s = '<' :: s1)
    (hd : '$' ∉ s) (hb : '!' ∉ s) (hlast : s.getLast? = some '>')
    (hm : m = [] ∨ ∃ m1 nl, m = m1 ++ [nl] ∧ isLineTerminator nl = true) :
    s <:+: wrapTemplate template (m ++ s) := by
  obtain ⟨pre, post, hsp⟩ := splitFirst_of_occurs _ _ hc
  obtain ⟨s1, hs1⟩ := hhead
  have hlast2 : ∀ l ∈ s.getLast?, l ≠ '<' ∧ l ≠ '(' := by
    intro l hl
    rw [hlast] at hl
    simp only [Option.mem_def, Option.some.injEq] at hl
    rw [← hl]
    decide
  unfold wrapTemplate
  rw [replaceStr_content template pre post _ hsp]
  cases hex : execTitle (m ++ s) with
  | none =>
    simp only
    have hgs := getSubstitution_append contentPlaceholder pre post s hd
      (by rw [hs1]; intro y0 hy0
          simp only [List.head?_cons, Option.mem_def, Option.some.injEq] at hy0
          rw [← hy0]; decide) m
    rw [hgs]
    exact ⟨pre ++ getSubstitution contentPlaceholder pre post m, post, by simp⟩
  | some r =>
    obtain ⟨h1, g, h2⟩ := r
    simp only
    rcases hm with hm | ⟨m1, nl, hm, hnl⟩
    · exfalso
      rw [hm, List.nil_append] at hex
      have hnc : ¬ titleCore <:+: s := by
        intro hi
        exact hb (hi.subset (by decide))
      rw [execTitle_none_of_no_core s hnc] at hex
      exact absurd hex (by simp)
    · obtain ⟨n1, n2, n3, n4⟩ := not_lineTerminator_pattern nl hnl
      have hd2 : '$' ∉ nl :: s := by
        intro hmem
        rcases List.mem_cons.mp hmem with e | e
        · exact n1 e.symm
        · exact hd e
      have hgs := getSubstitution_append contentPlaceholder pre post (nl :: s) hd2
        (by intro y0 hy0
            simp only [List.head?_cons, Option.mem_def, Option.some.injEq] at hy0
            rw [← hy0]; exact ⟨n2, n3, n4⟩) m1
      have hms : m ++ s = m1 ++ nl :: s := by rw [hm]; simp
      rw [hms, hgs]
      have hshape : pre ++ (getSubstitution contentPlaceholder pre post m1 ++ nl :: s) ++ post
          = (pre ++ getSubstitution contentPlaceholder pre post m1) ++ nl :: (s ++ post) := by
        simp
      rw [hshape]
      obtain ⟨a1, post1, hr⟩ := replaceStr_title_keeps_block
        (pre ++ getSubstitution contentPlaceholder pre post m1) s post (trim g) nl hnl hb
        (fun l hl => (hlast2 l hl).1)
      rw [hr, stripTitles_barrier nl _ hnl a1.length a1 (le_refl _),
        stripTitles_frame post1 s hb hlast2]
      exact ⟨stripTitles a1 ++ [nl], stripTitles post1, by simp⟩

/-- C7, amended: for every challenge id c and every content of index.md and
rules.md, once the directory of the challenge exists (mkdir succeeded or failed
with EEXIST) the data written to index.htm is wrapTemplate(markdown.render(
contents) + suffix) with the suffix that holds the rules link, and the data
written to rules.htm is wrapped with the empty suffix.  Given a template that
contains the content placeholder, an id c without dollar sign and without
exclamation mark, and rendered Markdown that is empty or ends in a line
terminator, the index page contains the rules link verbatim. -/
theorem processChallenge_pages {ε : Type} (md : Str → Str)
    (sassRender : Str → Bool → Except ε Str)
    (template challengesPath c indexMd rulesMd : Str) :
    (∀ mkdir : Except FsError Unit,
        (mkdir = .ok () ∨ ∃ e, mkdir = .error e ∧ e.code = "EEXIST".toList) →
        processChallenge md sassRender template challengesPath c mkdir indexMd rulesMd
          = .ok [(pathJoin ["public_html".toList, "content".toList, "challenges".toList, c,
                    "index.htm".toList],
                  wrapTemplate template (md indexMd ++ rulesSuffix c)),
                 (pathJoin ["public_html".toList, "content".toList, "challenges".toList, c,
                    "rules.htm".toList],
                  wrapTemplate template (md rulesMd ++ []))])
      ∧ (contentPlaceholder <:+: template → '$' ∉ c → '!' ∉ c →
          (md indexMd = [] ∨ ∃ m nl, md indexMd = m ++ [nl] ∧ isLineTerminator nl = true) →
          rulesLink c <:+: wrapTemplate template (md indexMd ++ rulesSuffix c)) := by
  constructor
  · intro mkdir hmk
    have e1 : endsWith (pathJoin [challengesPath, c, "index.md".toList]) ".md".toList = true := by
      rw [endsWith_iff]
      have h1 : ".md".toList <:+ "index.md".toList := by decide
      exact h1.trans (pathJoin_last [challengesPath, c] "index.md".toList (by decide) (by decide)
        (by decide) (by decide))
    have e2 : endsWith (pathJoin [challengesPath, c, "rules.md".toList]) ".md".toList = true := by
      rw [endsWith_iff]
      have h1 : ".md".toList <:+ "rules.md".toList := by decide
      exact h1.trans (pathJoin_last [challengesPath, c] "rules.md".toList (by decide) (by decide)
        (by decide) (by decide))
    unfold processChallenge
    rw [render_md md sassRender template _ _ indexMd e1,
      render_md md sassRender template _ _ rulesMd e2]
    rcases hmk with hmk | ⟨e, hmk, he⟩
    · rw [hmk]; rfl
    · rw [hmk]
      dsimp only
      rw [if_neg (not_not.mpr he)]
      rfl
  · intro hc hd hb hm
    have hd2 : '$' ∉ rulesSuffix c := by
      intro hmem
      rcases mem_rulesSuffix c _ hmem with h | h
      · exact absurd h (by decide)
      · exact hd h
    have hb2 : '!' ∉ rulesSuffix c := by
      intro hmem
      rcases mem_rulesSuffix c _ hmem with h | h
      · exact absurd h (by decide)
      · exact hb h
    exact (rulesLink_in_suffix c).trans
      (wrapTemplate_keeps_block template (md indexMd) (rulesSuffix c) hc (rulesSuffix_head c)
        hd2 hb2 (rulesSuffix_getLast c) hm)

/-! ## `wrapTemplate`: the title -/

/-- Trimming only removes characters. -/
theorem mem_of_mem_trim (s : Str) (x : Char) (h : x ∈ trim s) : x ∈ s := by
  unfold trim at h
  rw [List.mem_reverse] at h
  have h1 := (List.dropWhile_suffix isTrimChar).subset h
  rw [List.mem_reverse] at h1
  exact (List.dropWhile_suffix isTrimChar).subset h1

/-- The lazy group captures a non-empty text without line terminator in which the
tail of the expression does not occur, when `--` and a closing bracket follow. -/
theorem lazyGroup_intro (c : Char) (h2 : Str) (hc : c = '>' ∨ c = ')') :
    ∀ (foo acc : Str), foo ≠ [] → (∀ x ∈ foo, isLineTerminator x = false) →
      (∀ c1, (c1 = '>' ∨ c1 = ')') → ¬ ['-', '-', c1] <:+: foo) →
      lazyGroup acc (foo ++ '-' :: '-' :: c :: h2) = some (acc ++ foo, h2) := by
  intro foo
  induction foo with
  | nil => intro acc h; exact absurd rfl h
  | cons f0 t ih =>
    intro acc _ hlt hcl
    have hf0 : ¬ isLineTerminator f0 = true := by
      rw [hlt f0 (by simp)]; simp
    rw [List.cons_append, lazyGroup, if_neg hf0]
    cases t with
    | nil =>
      rw [List.nil_append, closer_intro c h2 hc]
    | cons x t2 =>
      have hnone : closer ((x :: t2) ++ '-' :: '-' :: c :: h2) = none := by
        match t2 with
        | [] =>
          show closer (x :: '-' :: '-' :: c :: h2) = none
          rw [closer, if_neg (fun h => h.2.2.elim (by decide) (by decide))]
        | [y] =>
          show closer (x :: y :: '-' :: '-' :: c :: h2) = none
          rw [closer, if_neg (fun h => h.2.2.elim (by decide) (by decide))]
        | y :: z :: r =>
          show closer (x :: y :: z :: (r ++ '-' :: '-' :: c :: h2)) = none
          rw [closer]
          apply if_neg
          rintro ⟨hx, hy, hz⟩
          apply hcl z hz
          rw [hx, hy]
          exact ⟨[f0], r, by simp⟩
      rw [hnone]
      simp only
      rw [ih (acc ++ [f0]) (by simp) (fun x hx => hlt x (List.mem_cons_of_mem _ hx))
        (fun c1 hc1 hi => hcl c1 hc1 (hi.trans (List.infix_cons (List.infix_refl _))))]
      simp

/-- A well-formed title marker is matched, and its text is the captured group. -/
theorem matchAt_intro (o c : Char) (foo h2 : Str) (ho : o = '<' ∨ o = '(')
    (hc : c = '>' ∨ c = ')') (hfoo : foo ≠ []) (hlt : ∀ x ∈ foo, isLineTerminator x = false)
    (hcl : ∀ c1, (c1 = '>' ∨ c1 = ')') → ¬ ['-', '-', c1] <:+: foo) :
    matchAt (o :: (titleCore ++ (foo ++ '-' :: '-' :: c :: h2))) = some (foo, h2) := by
  have hp : titleCore.isPrefixOf (titleCore ++ (foo ++ '-' :: '-' :: c :: h2)) = true :=
    List.isPrefixOf_iff_prefix.mpr (List.prefix_append _ _)
  rw [matchAt, if_pos ⟨ho, hp⟩, List.drop_left, lazyGroup_intro c h2 hc foo [] hfoo hlt hcl]
  rfl

/-- C2, amended: let the first content placeholder of the template stand behind
pre and before post, and let pre hold the title placeholder, behind a and before
b.  Let html be h1, a title marker (an opening bracket, `!--title`, the text Foo,
`--` and a closing bracket, where Foo is not empty and holds neither a line
terminator nor `--` followed by a closing bracket) and h2, without dollar sign,
and let `!--title` occur neither in the page before the marker nor behind it.
Then wrapTemplate(html) is the template with the title placeholder replaced by the
trimmed Foo and the content placeholder replaced by html with that marker cut
out. -/
theorem wrapTemplate_title (template pre post a b h1 foo h2 : Str) (o c : Char)
    (hs : splitFirst contentPlaceholder template = some (pre, post))
    (ht : splitFirst titlePlaceholder pre = some (a, b))
    (ho : o = '<' ∨ o = '(') (hc : c = '>' ∨ c = ')')
    (hfoo : foo ≠ []) (hlt : ∀ x ∈ foo, isLineTerminator x = false)
    (hcl : ∀ c1, (c1 = '>' ∨ c1 = ')') → ¬ ['-', '-', c1] <:+: foo)
    (hd : '$' ∉ h1 ++ o :: (titleCore ++ (foo ++ '-' :: '-' :: c :: h2)))
    (hbefore : ¬ titleCore <:+: a ++ trim foo ++ b ++ h1)
    (hafter : ¬ titleCore <:+: h2 ++ post) :
    wrapTemplate template (h1 ++ o :: (titleCore ++ (foo ++ '-' :: '-' :: c :: h2)))
      = a ++ trim foo ++ b ++ h1 ++ h2 ++ post := by
  have hm := matchAt_intro o c foo h2 ho hc hfoo hlt hcl
  have hh1 : ¬ titleCore <:+: h1 :=
    fun hi => hbefore (hi.trans ⟨a ++ trim foo ++ b, [], by simp⟩)
  have hex := execTitle_in_front o _ foo h2 ho hm h1 hh1
  have hdfoo : '$' ∉ trim foo := by
    intro hmem
    apply hd
    have := mem_of_mem_trim foo _ hmem
    simp [this]
  unfold wrapTemplate
  rw [hex, replaceStr_content template pre post _ hs, getSubstitution_of_no_dollar _ _ _ _ hd]
  simp only
  have hsp : splitFirst titlePlaceholder
      (pre ++ (h1 ++ o :: (titleCore ++ (foo ++ '-' :: '-' :: c :: h2))) ++ post)
      = some (a, b ++ ((h1 ++ o :: (titleCore ++ (foo ++ '-' :: '-' :: c :: h2))) ++ post)) := by
    rw [List.append_assoc]
    exact splitFirst_append _ _ _ _ _ ht
  unfold replaceStr
  rw [hsp]
  simp only
  rw [getSubstitution_of_no_dollar _ _ _ _ hdfoo]
  have hshape : a ++ trim foo
      ++ (b ++ ((h1 ++ o :: (titleCore ++ (foo ++ '-' :: '-' :: c :: h2))) ++ post))
      = (a ++ trim foo ++ b ++ h1)
        ++ o :: ((titleCore ++ (foo ++ '-' :: '-' :: c :: h2)) ++ post) := by
    simp
  rw [hshape, stripTitles_in_front o _ ho _ hbefore]
  have hm2 := matchAt_append _ foo h2 post hm
  rw [List.cons_append] at hm2
  rw [stripTitles_of_match _ foo _ hm2, stripTitles_of_no_core _ hafter]
  simp

/-! ## `wrapTemplate`: what the deletion of the markers leaves -/

/-- The kept pieces, put together, are the result of the deletion. -/
theorem keptFrom_join : ∀ (k : Nat) (s : Str), (keptFrom k s).flatten = stripFrom k s := by
  intro k s
  induction k, s using stripFrom.induct with
  | case1 k => simp [keptFrom, stripFrom]
  | case2 k c t ih => rw [keptFrom, stripFrom, ih]
  | case3 c t g rest hm ih =>
    rw [keptFrom, stripFrom, hm]
    simp only [List.flatten_cons, List.nil_append]
    exact ih
  | case4 c t hm ih =>
    rw [keptFrom, stripFrom, hm]
    simp only
    rw [← ih]
    cases keptFrom 0 t with
    | nil => rfl
    | cons p ps => rfl

/-- No kept piece holds a title marker, and the first piece of a scan that starts
at once is a beginning of the text. -/
theorem keptFrom_spec : ∀ (k : Nat) (s : Str),
    (∀ p ∈ keptFrom k s, execTitle p = none)
      ∧ ∃ p ps, keptFrom k s = p :: ps ∧ (k = 0 → p <+: s) := by
  intro k s
  induction k, s using stripFrom.induct with
  | case1 k =>
    have h : keptFrom k [] = [[]] := by cases k <;> rfl
    rw [h]
    exact ⟨by simp [execTitle], [], [], rfl, fun _ => List.prefix_refl _⟩
  | case2 k c t ih =>
    rw [keptFrom]
    obtain ⟨h1, p, ps, h2, _⟩ := ih
    exact ⟨h1, p, ps, h2, fun h => absurd h (by simp)⟩
  | case3 c t g rest hm ih =>
    rw [keptFrom, hm]
    simp only
    refine ⟨?_, [], _, rfl, fun _ => List.nil_prefix⟩
    intro p hp
    rcases List.mem_cons.mp hp with hp | hp
    · rw [hp]; rfl
    · exact ih.1 p hp
  | case4 c t hm ih =>
    rw [keptFrom, hm]
    simp only
    obtain ⟨h1, p, ps, h2, h3⟩ := ih
    rw [h2]
    simp only
    obtain ⟨more, hmore⟩ := h3 rfl
    have hcp : matchAt (c :: p) = none := by
      apply matchAt_none_of_append (c :: p) more
      rw [List.cons_append, hmore]
      exact hm
    refine ⟨?_, c :: p, ps, rfl, fun _ => ?_⟩
    · intro q hq
      rcases List.mem_cons.mp hq with hq | hq
      · rw [hq, execTitle, hcp, h1 p (by rw [h2]; simp)]
        rfl
      · exact h1 q (by rw [h2]; exact List.mem_cons_of_mem _ hq)
    · rw [← hmore]
      exact ⟨more, rfl⟩

/-- The first marker: no match begins before it, and its text is the captured
group. -/
theorem execTitle_spec : ∀ (s h1 g h2 : Str), execTitle s = some (h1, g, h2) →
    matchAt (s.drop h1.length) = some (g, h2)
      ∧ h1 <+: s ∧ ∀ k, k < h1.length → matchAt (s.drop k) = none := by
  intro s
  induction s with
  | nil => intro h1 g h2 h; exact absurd h (by simp [execTitle])
  | cons c t ih =>
    intro h1 g h2 h
    rw [execTitle] at h
    cases hm : matchAt (c :: t) with
    | some r =>
      rw [hm] at h
      simp only [Option.some.injEq, Prod.mk.injEq] at h
      obtain ⟨e1, e2, e3⟩ := h
      subst e1; subst e2; subst e3
      exact ⟨hm, List.nil_prefix, fun k hk => absurd hk (by simp)⟩
    | none =>
      rw [hm] at h
      simp only at h
      cases he : execTitle t with
      | none => rw [he] at h; exact absurd h (by simp)
      | some r =>
        obtain ⟨a1, g1, a2⟩ := r
        rw [he] at h
        simp only [Option.map_some', Option.some.injEq, Prod.mk.injEq] at h
        obtain ⟨e1, e2, e3⟩ := h
        subst e1; subst e2; subst e3
        obtain ⟨i1, i2, i3⟩ := ih a1 g1 a2 he
        refine ⟨i1, (List.prefix_cons_inj c).mpr i2, ?_⟩
        intro k hk
        cases k with
        | zero => exact hm
        | succ k => exact i3 k (by simpa using hk)


/-- Skipping `k` characters and scanning on gives the pieces of what is left. -/
theorem keptFrom_drop : ∀ (s : Str) (k : Nat), keptFrom k s = keptFrom 0 (s.drop k) := by
  intro s
  induction s with
  | nil => intro k; cases k <;> rfl
  | cons c t ih =>
    intro k
    cases k with
    | zero => rfl
    | succ k => rw [keptFrom, List.drop_succ_cons, ih]

/-- Where the expression matches, a piece ends and the scan goes on behind the
match. -/
theorem keptPieces_of_match (s g rest : Str) (h : matchAt s = some (g, rest)) :
    keptPieces s = [] :: keptPieces rest := by
  cases s with
  | nil => exact absurd h (by simp [matchAt])
  | cons c t =>
    obtain ⟨x, hx⟩ := matchAt_rest_suffix c t g rest h
    unfold keptPieces
    rw [keptFrom, h]
    show [] :: keptFrom (t.length - rest.length) t = _
    rw [keptFrom_drop, hx]
    congr 2
    rw [List.length_append, Nat.add_sub_cancel, List.drop_left]

/-- There is always a first piece. -/
theorem keptPieces_ne_nil (s : Str) : keptPieces s ≠ [] := by
  obtain ⟨_, p, ps, h, _⟩ := keptFrom_spec 0 s
  unfold keptPieces
  rw [h]
  simp

/-- Where the expression does not match, the character goes to the current
piece. -/
theorem keptPieces_of_no_match (c : Char) (t p : Str) (ps : List Str)
    (h : matchAt (c :: t) = none) (hp : keptPieces t = p :: ps) :
    keptPieces (c :: t) = (c :: p) :: ps := by
  unfold keptPieces at hp ⊢
  rw [keptFrom, h]
  simp only
  rw [hp]

/-- A text without title marker is left as it is, in one piece. -/
theorem stripTitles_of_exec_none :
    ∀ s : Str, execTitle s = none → stripTitles s = s ∧ keptPieces s = [s] := by
  intro s
  induction s with
  | nil => intro _; exact ⟨rfl, rfl⟩
  | cons c t ih =>
    intro h
    rw [execTitle] at h
    cases hm : matchAt (c :: t) with
    | some r => rw [hm] at h; exact absurd h (by simp)
    | none =>
      rw [hm] at h
      simp only [Option.map_eq_none'] at h
      obtain ⟨i1, i2⟩ := ih h
      exact ⟨by rw [stripTitles_of_no_match c t hm, i1],
        keptPieces_of_no_match c t t [] hm i2⟩

/-- The deletion keeps the text before the leftmost marker, drops that marker and
goes on behind it. -/
theorem stripTitles_of_exec_some :
    ∀ (s x g y : Str), execTitle s = some (x, g, y) →
      stripTitles s = x ++ stripTitles y ∧ keptPieces s = x :: keptPieces y := by
  intro s
  induction s with
  | nil => intro x g y h; exact absurd h (by simp [execTitle])
  | cons c t ih =>
    intro x g y h
    rw [execTitle] at h
    cases hm : matchAt (c :: t) with
    | some r =>
      rw [hm] at h
      simp only [Option.some.injEq, Prod.mk.injEq] at h
      obtain ⟨e1, e2, e3⟩ := h
      subst e1; subst e2; subst e3
      exact ⟨stripTitles_of_match _ _ _ hm, keptPieces_of_match _ _ _ hm⟩
    | none =>
      rw [hm] at h
      simp only at h
      cases he : execTitle t with
      | none => rw [he] at h; exact absurd h (by simp)
      | some r =>
        obtain ⟨a1, g1, a2⟩ := r
        rw [he] at h
        simp only [Option.map_some', Option.some.injEq, Prod.mk.injEq] at h
        obtain ⟨e1, e2, e3⟩ := h
        subst e1; subst e2; subst e3
        obtain ⟨i1, i2⟩ := ih a1 g1 a2 he
        exact ⟨by rw [stripTitles_of_no_match c t hm, i1]; rfl,
          keptPieces_of_no_match c t a1 _ hm i2⟩

/-- The first marker splits the text: what is before it, the marker, and what is
behind it, which is shorter than the text. -/
theorem execTitle_split (s x g y : Str) (h : execTitle s = some (x, g, y)) :
    ∃ m, s = x ++ m ++ y ∧ matchAt (m ++ y) = some (g, y) ∧ m ≠ []
      ∧ (∀ c ∈ m, isLineTerminator c = false) ∧ g <:+: m := by
  obtain ⟨i1, i2, _⟩ := execTitle_spec s x g y h
  obtain ⟨o, c, ho, hc, _, hlt, hs⟩ := matchAt_spec _ _ _ i1
  have hx : s = x ++ s.drop x.length := by
    obtain ⟨w, hw⟩ := i2
    rw [← hw, List.drop_left]
  have hmy : o :: (titleCore ++ (g ++ ['-', '-', c])) ++ y = s.drop x.length := by
    rw [hs]; simp
  refine ⟨o :: (titleCore ++ (g ++ ['-', '-', c])), ?_, ?_, by simp, ?_, ?_⟩
  · rw [List.append_assoc, hmy]
    exact hx
  · rw [hmy]
    exact i1
  · intro ch hch
    have hcore : ∀ ch ∈ titleCore, isLineTerminator ch = false := by decide
    simp only [List.mem_cons, List.mem_append, List.not_mem_nil, or_false] at hch
    rcases hch with h0 | hch | hch | h1 | h1 | h1
    · rw [h0]
      rcases ho with ho | ho <;> rw [ho] <;> decide
    · exact hcore ch hch
    · exact hlt ch hch
    · rw [h1]; decide
    · rw [h1]; decide
    · rw [h1]
      rcases hc with hc | hc <;> rw [hc] <;> decide
  · exact ⟨o :: titleCore, ['-', '-', c], by simp⟩

/-- A text holds no title marker exactly when the expression matches at none of
its positions. -/
theorem execTitle_eq_none_iff :
    ∀ s : Str, execTitle s = none ↔ ∀ k, matchAt (s.drop k) = none := by
  intro s
  induction s with
  | nil =>
    constructor
    · intro _ k; simp [matchAt]
    · intro _; rfl
  | cons c t ih =>
    rw [execTitle]
    constructor
    · intro h k
      cases hm : matchAt (c :: t) with
      | some r => rw [hm] at h; exact absurd h (by simp)
      | none =>
        rw [hm] at h
        simp only [Option.map_eq_none'] at h
        cases k with
        | zero => exact hm
        | succ k => exact (ih.mp h) k
    · intro h
      have h0 := h 0
      rw [List.drop_zero] at h0
      rw [h0]
      simp only [Option.map_eq_none']
      exact ih.mpr (fun k => h (k + 1))


/-- Whether the lazy group finds its end does not depend on what it has captured
so far. -/
theorem lazyGroup_ne_none_acc :
    ∀ (t a b : Str), lazyGroup a t ≠ none → lazyGroup b t ≠ none := by
  intro t
  induction t with
  | nil => intro a b h; exact absurd (by simp [lazyGroup]) h
  | cons ch t ih =>
    intro a b h
    rw [lazyGroup] at h ⊢
    by_cases hl : isLineTerminator ch = true
    · rw [if_pos hl] at h; exact absurd rfl h
    · rw [if_neg hl] at h ⊢
      cases hcl : closer t with
      | some r => simp
      | none =>
        rw [hcl] at h
        exact ih _ _ h

/-- The lazy group runs through characters that are no line terminators. -/
theorem lazyGroup_through :
    ∀ (x a b y : Str), (∀ c ∈ x, isLineTerminator c = false) → lazyGroup a y ≠ none →
      lazyGroup b (x ++ y) ≠ none := by
  intro x
  induction x with
  | nil => intro a b y _ h; exact lazyGroup_ne_none_acc y a b h
  | cons c x ih =>
    intro a b y hx h
    have hc : ¬ isLineTerminator c = true := by rw [hx c (by simp)]; simp
    rw [List.cons_append, lazyGroup, if_neg hc]
    cases hcl : closer (x ++ y) with
    | some r => simp
    | none => exact ih a _ y (fun d hd => hx d (List.mem_cons_of_mem _ hd)) h

/-- Where the tail of the expression matches in front of one text, in front of
another it matches too, or what stands in front is shorter than the tail and
holds no line terminator. -/
theorem closer_transfer (w k y : Str) (h : closer (w ++ k) ≠ none) :
    closer (w ++ y) ≠ none ∨ ∀ c ∈ w, isLineTerminator c = false := by
  match w, h with
  | [], _ => exact Or.inr (by simp)
  | [a], h =>
    right
    cases hc : closer ([a] ++ k) with
    | none => exact absurd hc h
    | some r =>
      obtain ⟨c, _, hs⟩ := closer_spec _ _ hc
      simp only [List.singleton_append, List.cons.injEq] at hs
      intro d hd
      rw [List.mem_singleton] at hd
      rw [hd, hs.1]; decide
  | [a, b], h =>
    right
    cases hc : closer ([a, b] ++ k) with
    | none => exact absurd hc h
    | some r =>
      obtain ⟨c, _, hs⟩ := closer_spec _ _ hc
      simp only [List.cons_append, List.nil_append, List.cons.injEq] at hs
      intro d hd
      simp only [List.mem_cons, List.not_mem_nil, or_false] at hd
      rcases hd with hd | hd
      · rw [hd, hs.1]; decide
      · rw [hd, hs.2.1]; decide
  | a :: b :: c :: r, h =>
    left
    have h1 : closer (a :: b :: c :: (r ++ k)) ≠ none := h
    show closer (a :: b :: c :: (r ++ y)) ≠ none
    rw [closer] at h1 ⊢
    by_cases hc : a = '-' ∧ b = '-' ∧ (c = '>' ∨ c = ')')
    · rw [if_pos hc]; simp
    · rw [if_neg hc] at h1; exact absurd rfl h1

/-- Putting a text in which the lazy group finds its end behind `w` never stops
the lazy group from finding an end. -/
theorem lazyGroup_transfer (k y a : Str) (hy : lazyGroup a y ≠ none) :
    ∀ (w b : Str), lazyGroup b (w ++ k) ≠ none → lazyGroup b (w ++ y) ≠ none := by
  intro w
  induction w with
  | nil => intro b _; exact lazyGroup_ne_none_acc y a b hy
  | cons c w ih =>
    intro b h
    rw [List.cons_append, lazyGroup] at h ⊢
    by_cases hl : isLineTerminator c = true
    · rw [if_pos hl] at h; exact absurd rfl h
    · rw [if_neg hl] at h ⊢
      cases hcy : closer (w ++ y) with
      | some r => simp
      | none =>
        simp only
        cases hck : closer (w ++ k) with
        | none =>
          rw [hck] at h
          exact ih _ h
        | some r =>
          rcases closer_transfer w k y (by rw [hck]; simp) with h1 | h1
          · exact absurd hcy h1
          · exact lazyGroup_through w a _ y h1 hy

/-- When the expression matches at the head. -/
theorem matchAt_ne_none_iff (o : Char) (t : Str) :
    matchAt (o :: t) ≠ none ↔
      (o = '<' ∨ o = '(') ∧ titleCore <+: t ∧ lazyGroup [] (t.drop titleCore.length) ≠ none := by
  rw [matchAt]
  by_cases hc : (o = '<' ∨ o = '(') ∧ titleCore.isPrefixOf t = true
  · rw [if_pos hc]
    exact ⟨fun h => ⟨hc.1, List.isPrefixOf_iff_prefix.mp hc.2, h⟩, fun h => h.2.2⟩
  · rw [if_neg hc]
    constructor
    · intro h; exact absurd rfl h
    · rintro ⟨h1, h2, _⟩
      exact absurd ⟨h1, List.isPrefixOf_iff_prefix.mpr h2⟩ hc

/-- A text that ends in an opening bracket and a proper beginning of `!--title`. -/
theorem endsInMarkerStart_intro (x : Str) (o : Char) (j : Nat) (ho : o = '<' ∨ o = '(')
    (hj : j < titleCore.length) (h : (o :: titleCore.take j) <:+ x) :
    endsInMarkerStart x = true := by
  unfold endsInMarkerStart
  rw [List.any_eq_true]
  refine ⟨j, List.mem_range.mpr hj, ?_⟩
  rw [Bool.or_eq_true]
  rcases ho with ho | ho
  · left; rw [← ho]; exact List.isSuffixOf_iff_suffix.mpr h
  · right; rw [← ho]; exact List.isSuffixOf_iff_suffix.mpr h

/-- Text kept in front of a deleted marker that does not end in the beginning of a
marker begins no marker with what is kept behind it: a match would either begin
in those last characters or have been found by the scan. -/
theorem matchAt_none_at_join (x m y k u : Str) (g : Str)
    (hm : matchAt (m ++ y) = some (g, y))
    (hfront : ∀ i, i < x.length → matchAt ((x ++ (m ++ y)).drop i) = none)
    (hx : endsInMarkerStart x = false) (hu : u ≠ []) (hux : u <:+ x) :
    matchAt (u ++ k) = none := by
  cases u with
  | nil => exact absurd rfl hu
  | cons o u1 =>
    by_contra hne
    rw [List.cons_append] at hne
    obtain ⟨ho, hcore, hlazy⟩ := (matchAt_ne_none_iff o (u1 ++ k)).mp hne
    by_cases hlen : u1.length < titleCore.length
    · have hp : u1 <+: titleCore :=
        List.prefix_of_prefix_length_le (List.prefix_append _ _) hcore (le_of_lt hlen)
      have ht : u1 = titleCore.take u1.length := List.prefix_iff_eq_take.mp hp
      have := endsInMarkerStart_intro x o u1.length ho hlen (by rw [← ht]; exact hux)
      rw [hx] at this
      exact absurd this (by simp)
    · have hle : titleCore.length ≤ u1.length := Nat.le_of_not_lt hlen
      have hp : titleCore <+: u1 :=
        List.prefix_of_prefix_length_le hcore (List.prefix_append _ _) hle
      rw [List.drop_append_of_le_length hle] at hlazy
      -- the lazy group finds its end in the deleted marker
      have hy : lazyGroup [] (m ++ y) ≠ none := by
        obtain ⟨o2, c2, ho2, _, _, _, hs2⟩ := matchAt_spec _ _ _ hm
        have hne2 : matchAt (o2 :: (titleCore ++ (g ++ '-' :: '-' :: c2 :: y))) ≠ none := by
          rw [← hs2, hm]; simp
        obtain ⟨_, _, hl2⟩ := (matchAt_ne_none_iff _ _).mp hne2
        rw [List.drop_left] at hl2
        rw [hs2]
        have hnl : ∀ c ∈ o2 :: titleCore, isLineTerminator c = false := by
          intro c hc
          rcases List.mem_cons.mp hc with h0 | h0
          · rw [h0]
            rcases ho2 with ho2 | ho2 <;> rw [ho2] <;> decide
          · have hcore : ∀ ch ∈ titleCore, isLineTerminator ch = false := by decide
            exact hcore c h0
        exact lazyGroup_through (o2 :: titleCore) [] [] _ hnl hl2
      have h2 := lazyGroup_transfer k (m ++ y) [] hy _ _ hlazy
      obtain ⟨v, hv⟩ := hux
      have hi : v.length < x.length := by
        rw [← hv]; simp
      have hd : (x ++ (m ++ y)).drop v.length = o :: (u1 ++ (m ++ y)) := by
        rw [← hv, List.append_assoc, List.drop_left]
        rfl
      have h3 := hfront v.length hi
      rw [hd] at h3
      apply (matchAt_ne_none_iff o (u1 ++ (m ++ y))).mpr ⟨ho, hp.trans (List.prefix_append _ _), ?_⟩ h3
      rw [List.drop_append_of_le_length hle]
      exact h2


/-- A text in front of a text without marker forms no marker with it when the
expression matches at none of its positions. -/
theorem execTitle_append_none (k : Str) (hk : execTitle k = none) :
    ∀ x : Str, (∀ u, u ≠ [] → u <:+ x → matchAt (u ++ k) = none) →
      execTitle (x ++ k) = none := by
  intro x
  induction x with
  | nil => intro _; exact hk
  | cons c t ih =>
    intro h
    have h0 := h (c :: t) (by simp) (List.suffix_refl _)
    rw [List.cons_append] at h0
    rw [List.cons_append, execTitle, h0,
      ih (fun u hu hs => h u hu (hs.trans (List.suffix_cons c t)))]
    rfl

/-- The deletion of the markers leaves no marker when no text kept in front of a
deleted marker ends in the beginning of a marker. -/
theorem execTitle_stripTitles_none :
    ∀ (n : Nat) (s : Str), s.length ≤ n → cutsFormNoMarker s = true →
      execTitle (stripTitles s) = none := by
  intro n
  induction n with
  | zero =>
    intro s hs _
    have h0 : s = [] := List.length_eq_zero.mp (Nat.le_zero.mp hs)
    subst h0
    rfl
  | succ n ih =>
    intro s hs hsafe
    cases hex : execTitle s with
    | none => rw [(stripTitles_of_exec_none s hex).1]; exact hex
    | some r =>
      obtain ⟨x, g, y⟩ := r
      obtain ⟨e1, e2⟩ := stripTitles_of_exec_some s x g y hex
      obtain ⟨m, hsm, hm, hmne, _, _⟩ := execTitle_split s x g y hex
      obtain ⟨_, _, hfront⟩ := execTitle_spec s x g y hex
      have hylen : y.length ≤ n := by
        have := congrArg List.length hsm
        have hm1 : 0 < m.length := List.length_pos.mpr hmne
        simp only [List.length_append] at this
        omega
      unfold cutsFormNoMarker at hsafe
      rw [e2, List.dropLast_cons_of_ne_nil (keptPieces_ne_nil y), List.all_cons,
        Bool.and_eq_true] at hsafe
      obtain ⟨hx, hrest⟩ := hsafe
      have hx2 : endsInMarkerStart x = false := by simpa using hx
      have hk := ih y hylen hrest
      rw [e1]
      apply execTitle_append_none _ hk
      intro u hu hux
      apply matchAt_none_at_join x m y (stripTitles y) u g hm ?_ hx2 hu hux
      intro i hi
      rw [← List.append_assoc, ← hsm]
      exact hfront i hi

/-- C3, amended: for every html that contains one or more title markers, with g
the text of the first one (no match of the title expression begins before it) and
g free of dollar signs, let r be the page after the content replacement with its
first title placeholder replaced by the trimmed g (r is that page itself when it
has no title placeholder).  Then wrapTemplate(html) is the deletion of the title
markers in r: the deletion keeps the text before the first marker of a text,
drops that marker and goes on behind it, until no marker is found, so the output
is the concatenation of the kept pieces and no kept piece contains a marker.  The
output contains no title marker at all whenever no text kept in front of a deleted
marker ends in an opening bracket followed by a proper beginning of `!--title`;
only there can a deletion join text into a new marker. -/
theorem wrapTemplate_first_title (template html h1 g h2 r : Str)
    (hex : execTitle html = some (h1, g, h2)) (hd : '$' ∉ g)
    (hr : r = replaceStr (replaceStr template contentPlaceholder html) titlePlaceholder
      (trim g)) :
    (matchAt (html.drop h1.length) = some (g, h2)
        ∧ ∀ k, k < h1.length → matchAt (html.drop k) = none)
      ∧ (∀ x y, splitFirst titlePlaceholder (replaceStr template contentPlaceholder html)
            = some (x, y) → r = x ++ trim g ++ y)
      ∧ (splitFirst titlePlaceholder (replaceStr template contentPlaceholder html) = none →
          r = replaceStr template contentPlaceholder html)
      ∧ wrapTemplate template html = stripTitles r
      ∧ (∀ s x g1 y, execTitle s = some (x, g1, y) →
          stripTitles s = x ++ stripTitles y ∧ keptPieces s = x :: keptPieces y)
      ∧ (∀ s, execTitle s = none → stripTitles s = s ∧ keptPieces s = [s])
      ∧ stripTitles r = (keptPieces r).flatten
      ∧ (∀ p ∈ keptPieces r, execTitle p = none)
      ∧ (cutsFormNoMarker r = true → execTitle (wrapTemplate template html) = none) := by
  obtain ⟨i1, _, i3⟩ := execTitle_spec html h1 g h2 hex
  have hdt : '$' ∉ trim g := fun hm => hd (mem_of_mem_trim g _ hm)
  have hw : wrapTemplate template html = stripTitles r := by
    unfold wrapTemplate
    rw [hex, hr]
  refine ⟨⟨i1, i3⟩, ?_, ?_, hw, stripTitles_of_exec_some, stripTitles_of_exec_none,
    (keptFrom_join 0 _).symm, (keptFrom_spec 0 _).1, ?_⟩
  · intro x y hsp
    rw [hr, replaceStr_of_some _ _ _ x y hsp, getSubstitution_of_no_dollar _ _ _ _ hdt]
  · intro hsp
    rw [hr, replaceStr_of_none _ _ _ hsp]
  · intro hsafe
    rw [hw]
    exact execTitle_stripTitles_none r.length r (le_refl _) hsafe


/-! ## `wrapTemplate`: the content placeholder -/

/-- A text that does not end in a proper beginning of `pat`. -/
theorem endsInStartOf_false (pat s : Str) (h : endsInStartOf pat s = false) :
    ∀ u v, u ++ v = pat → u ≠ [] → v ≠ [] → ¬ u <:+ s := by
  intro u v huv hu hv hs
  have ht : endsInStartOf pat s = true := by
    unfold endsInStartOf
    rw [List.any_eq_true]
    refine ⟨u.length, List.mem_range.mpr ?_, ?_⟩
    · rw [← huv, List.length_append]
      have := List.length_pos.mpr hv
      omega
    · rw [Bool.and_eq_true]
      refine ⟨by simpa using List.length_pos.mpr hu, ?_⟩
      rw [← huv, List.take_left' rfl]
      exact List.isSuffixOf_iff_suffix.mpr hs
  rw [h] at ht
  exact absurd ht (by simp)

/-- A text that does not begin with a proper end of `pat`. -/
theorem beginsWithEndOf_false (pat s : Str) (h : beginsWithEndOf pat s = false) :
    ∀ u v, u ++ v = pat → u ≠ [] → v ≠ [] → ¬ v <+: s := by
  intro u v huv hu hv hs
  have ht : beginsWithEndOf pat s = true := by
    unfold beginsWithEndOf
    rw [List.any_eq_true]
    refine ⟨u.length, List.mem_range.mpr ?_, ?_⟩
    · rw [← huv, List.length_append]
      have := List.length_pos.mpr hv
      omega
    · rw [Bool.and_eq_true]
      refine ⟨by simpa using List.length_pos.mpr hu, ?_⟩
      rw [← huv, List.drop_left' rfl]
      exact List.isPrefixOf_iff_prefix.mpr hs
  rw [h] at ht
  exact absurd ht (by simp)

/-- The trimmed text is a part of the text. -/
theorem trim_isInfix (s : Str) : trim s <:+: s := by
  unfold trim
  have h1 : (s.dropWhile isTrimChar) <:+ s := List.dropWhile_suffix isTrimChar
  have h2 : ((s.dropWhile isTrimChar).reverse.dropWhile isTrimChar)
      <:+ (s.dropWhile isTrimChar).reverse := List.dropWhile_suffix isTrimChar
  have h3 : ((s.dropWhile isTrimChar).reverse.dropWhile isTrimChar).reverse
      <+: s.dropWhile isTrimChar := by
    have := List.reverse_prefix.mpr h2
    rwa [List.reverse_reverse] at this
  exact h3.isInfix.trans h1.isInfix

/-- The deletion of the markers only removes characters. -/
theorem stripFrom_sublist : ∀ (k : Nat) (s : Str), (stripFrom k s).Sublist s := by
  intro k s
  induction k, s using stripFrom.induct with
  | case1 k => simp [stripFrom]
  | case2 k c t ih => rw [stripFrom]; exact ih.trans (List.sublist_cons_self c t)
  | case3 c t g rest hm ih =>
    rw [stripFrom, hm]
    exact ih.trans (List.sublist_cons_self c t)
  | case4 c t hm ih =>
    rw [stripFrom, hm]
    exact ih.cons₂ c

/-- The deletion of the markers spells no `pat` when the text holds none and no
text kept in front of a deleted marker ends in a proper beginning of `pat`. -/
theorem not_infix_stripTitles (pat : Str) :
    ∀ (n : Nat) (s : Str), s.length ≤ n → ¬ pat <:+: s →
      ((keptPieces s).dropLast.all fun p => !endsInStartOf pat p) = true →
      ¬ pat <:+: stripTitles s := by
  intro n
  induction n with
  | zero =>
    intro s hs hp _
    have h0 : s = [] := List.length_eq_zero.mp (Nat.le_zero.mp hs)
    subst h0
    exact hp
  | succ n ih =>
    intro s hs hp hsafe
    cases hex : execTitle s with
    | none => rw [(stripTitles_of_exec_none s hex).1]; exact hp
    | some r =>
      obtain ⟨x, g, y⟩ := r
      obtain ⟨e1, e2⟩ := stripTitles_of_exec_some s x g y hex
      obtain ⟨m, hsm, _, hmne, _, _⟩ := execTitle_split s x g y hex
      have hylen : y.length ≤ n := by
        have := congrArg List.length hsm
        have hm1 : 0 < m.length := List.length_pos.mpr hmne
        simp only [List.length_append] at this
        omega
      rw [e2, List.dropLast_cons_of_ne_nil (keptPieces_ne_nil y), List.all_cons,
        Bool.and_eq_true] at hsafe
      obtain ⟨hx, hrest⟩ := hsafe
      have hx2 : endsInStartOf pat x = false := by simpa using hx
      have hpx : ¬ pat <:+: x := fun h => hp (h.trans ⟨[], m ++ y, by rw [hsm]; simp⟩)
      have hpy : ¬ pat <:+: y := fun h => hp (h.trans ⟨x ++ m, [], by rw [hsm]; simp⟩)
      have hk := ih y hylen hpy hrest
      rw [e1]
      intro hc
      rcases infix_append_cases pat x (stripTitles y) hc with h1 | h1 | ⟨u, v, hu, hv, huv, hsuf, _⟩
      · exact hpx h1
      · exact hk h1
      · exact endsInStartOf_false pat x hx2 u v huv hu hv hsuf

/-- Wrapping a content without placeholder and without dollar sign gives a page
without placeholder, when neither the seams of the template nor the filling of
the title nor the deletion of the markers can join text into one. -/
theorem wrapTemplate_once (pre post html : Str)
    (hpre : ¬ contentPlaceholder <:+: pre) (hpost : ¬ contentPlaceholder <:+: post)
    (hj1 : endsInStartOf contentPlaceholder pre = false)
    (hj2 : beginsWithEndOf contentPlaceholder post = false)
    (hh : ¬ contentPlaceholder <:+: html) (hd : '$' ∉ html)
    (hcut : cutsFormNoPlaceholder (pre ++ contentPlaceholder ++ post) html = true) :
    ¬ contentPlaceholder <:+: wrapTemplate (pre ++ contentPlaceholder ++ post) html
      ∧ ∀ c ∈ wrapTemplate (pre ++ contentPlaceholder ++ post) html,
          c ∈ pre ∨ c ∈ html ∨ c ∈ post := by
  have hp1 := endsInStartOf_false _ _ hj1
  have hp2 := beginsWithEndOf_false _ _ hj2
  have hs := splitFirst_behind contentPlaceholder pre post hpre hp1
  have hr1 : replaceStr (pre ++ contentPlaceholder ++ post) contentPlaceholder html
      = pre ++ html ++ post := by
    rw [replaceStr_content _ pre post _ hs, getSubstitution_of_no_dollar _ _ _ html hd]
  have hw1 : ¬ contentPlaceholder <:+: pre ++ html ++ post :=
    not_infix_insert contentPlaceholder pre html post hpre hh hpost hp1 hp2
  have hmem1 : ∀ c ∈ pre ++ html ++ post, c ∈ pre ∨ c ∈ html ∨ c ∈ post := by
    intro c hc
    simp only [List.mem_append] at hc
    tauto
  unfold cutsFormNoPlaceholder at hcut
  unfold wrapTemplate
  rw [hr1] at hcut ⊢
  cases hex : execTitle html with
  | none => exact ⟨hw1, hmem1⟩
  | some r =>
    obtain ⟨h1, g, h2⟩ := r
    rw [hex] at hcut
    simp only [Bool.and_eq_true] at hcut ⊢
    obtain ⟨hfill, hdel⟩ := hcut
    obtain ⟨m, hsm, _, _, _, hgm⟩ := execTitle_split html h1 g h2 hex
    have hgh : trim g <:+: html :=
      (trim_isInfix g).trans (hgm.trans ⟨h1, h2, hsm.symm⟩)
    have hdt : '$' ∉ trim g := fun hm => hd (hgh.subset hm)
    have hfilled : ¬ contentPlaceholder <:+:
          replaceStr (pre ++ html ++ post) titlePlaceholder (trim g)
        ∧ ∀ c ∈ replaceStr (pre ++ html ++ post) titlePlaceholder (trim g),
            c ∈ pre ∨ c ∈ html ∨ c ∈ post := by
      cases hsp : splitFirst titlePlaceholder (pre ++ html ++ post) with
      | none =>
        rw [replaceStr_of_none _ _ _ hsp]
        exact ⟨hw1, hmem1⟩
      | some xy =>
        obtain ⟨x, y⟩ := xy
        rw [hsp] at hfill
        simp only [Bool.and_eq_true, Bool.not_eq_true'] at hfill
        have hxy := splitFirst_eq_append _ _ _ _ hsp
        rw [replaceStr_of_some _ _ _ x y hsp, getSubstitution_of_no_dollar _ _ _ _ hdt]
        have hcx : ¬ contentPlaceholder <:+: x :=
          fun h => hw1 (h.trans ⟨[], titlePlaceholder ++ y, by rw [hxy]; simp⟩)
        have hcy : ¬ contentPlaceholder <:+: y :=
          fun h => hw1 (h.trans ⟨x ++ titlePlaceholder, [], by rw [hxy]; simp⟩)
        refine ⟨not_infix_insert contentPlaceholder x (trim g) y hcx
          (fun h => hh (h.trans hgh)) hcy (endsInStartOf_false _ _ hfill.1)
          (beginsWithEndOf_false _ _ hfill.2), ?_⟩
        intro c hc
        simp only [List.mem_append] at hc
        rcases hc with (hc | hc) | hc
        · exact hmem1 c (by rw [hxy]; simp [hc])
        · exact Or.inr (Or.inl (hgh.subset hc))
        · exact hmem1 c (by rw [hxy]; simp [hc])
    refine ⟨not_infix_stripTitles contentPlaceholder _ _ (le_refl _) hfilled.1 hdel, ?_⟩
    intro c hc
    exact hfilled.2 c ((stripFrom_sublist 0 _).subset hc)


/-- C4, amended: let the template be pre, the content placeholder and post, where
the placeholder occurs neither in pre nor in post, pre does not end in a proper
beginning of the placeholder and post does not begin with a proper end of it.  Let
html hold no placeholder and no dollar sign, with or without title markers, such
that, when html holds a title marker, the text before the first title placeholder
of the page does not end in a proper beginning of the content placeholder, the
text behind it does not begin with a proper end of it, and no text kept in front
of a deleted marker ends in a proper beginning of it.  Then wrapTemplate(html)
does not contain the content placeholder; and when the template holds no dollar
sign and the wrapped page meets the same condition on its title markers,
wrapTemplate(wrapTemplate(html)) does not contain it either. -/
theorem wrapTemplate_no_placeholder (pre post html : Str)
    (hpre : ¬ contentPlaceholder <:+: pre) (hpost : ¬ contentPlaceholder <:+: post)
    (hj1 : endsInStartOf contentPlaceholder pre = false)
    (hj2 : beginsWithEndOf contentPlaceholder post = false)
    (hh : ¬ contentPlaceholder <:+: html) (hd : '$' ∉ html)
    (hcut : cutsFormNoPlaceholder (pre ++ contentPlaceholder ++ post) html = true) :
    ¬ contentPlaceholder <:+: wrapTemplate (pre ++ contentPlaceholder ++ post) html
      ∧ ('$' ∉ pre → '$' ∉ post →
          cutsFormNoPlaceholder (pre ++ contentPlaceholder ++ post)
            (wrapTemplate (pre ++ contentPlaceholder ++ post) html) = true →
          ¬ contentPlaceholder <:+:
            wrapTemplate (pre ++ contentPlaceholder ++ post)
              (wrapTemplate (pre ++ contentPlaceholder ++ post) html)) := by
  obtain ⟨h1, hmem⟩ := wrapTemplate_once pre post html hpre hpost hj1 hj2 hh hd hcut
  refine ⟨h1, ?_⟩
  intro hdpre hdpost hcut2
  have hd2 : '$' ∉ wrapTemplate (pre ++ contentPlaceholder ++ post) html := by
    intro hm
    rcases hmem _ hm with h | h | h
    · exact hdpre h
    · exact hd h
    · exact hdpost h
  exact (wrapTemplate_once pre post _ hpre hpost hj1 hj2 h1 hd2 hcut2).1

/-! ## Concrete pages -/

/-- No end of a text that ends in `>` is a proper beginning of the content
placeholder. -/
theorem no_join_left (pre : Str) (c : Char) (hl : pre.getLast? = some c)
    (hc : c ∉ contentPlaceholder.dropLast) :
    ∀ u v, u ++ v = contentPlaceholder → u ≠ [] → v ≠ [] → ¬ u <:+ pre := by
  intro u v huv hu hv hs
  apply hc
  have h1 : u.getLast? = some c := by
    obtain ⟨w, hw⟩ := hs
    rw [← hl, ← hw, List.getLast?_append_of_ne_nil _ hu]
  have h2 : c ∈ u := List.mem_of_getLast?_eq_some h1
  rw [← huv, List.dropLast_append_of_ne_nil _ hv]
  exact List.mem_append_left _ h2

/-- No beginning of a text that begins with `<` is a proper end of the content
placeholder. -/
theorem no_join_right (post : Str) (c : Char) (hh : post.head? = some c)
    (hc : c ∉ contentPlaceholder.tail) :
    ∀ u v, u ++ v = contentPlaceholder → u ≠ [] → v ≠ [] → ¬ v <+: post := by
  intro u v huv hu hv hp
  apply hc
  have h1 : v.head? = some c := by
    obtain ⟨w, hw⟩ := hp
    rw [← hh, ← hw]
    cases v with
    | nil => exact absurd rfl hv
    | cons a b => rfl
  have h2 : c ∈ v := List.mem_of_mem_head? h1
  rw [← huv]
  cases u with
  | nil => exact absurd rfl hu
  | cons a b => exact List.mem_append_right _ h2

/-- C2 as stated fails: the marker `(!--title Foo--)` inside
`(!--ti(!--title Foo--)tle Foo--)` is the only match, the title slot gets `Foo`,
and cutting the marker out leaves the marker text in the body of the page. -/
theorem wrapTemplate_marker_remains :
    execTitle "(!--ti(!--title Foo--)tle Foo--)".toList
        = some ("(!--ti".toList, " Foo".toList, "tle Foo--)".toList)
      ∧ wrapTemplate
          "<title><!--place-title-here--></title><body><!--place-content-here--></body>".toList
          "(!--ti(!--title Foo--)tle Foo--)".toList
        = "<title>Foo</title><body>(!--title Foo--)</body>".toList := by
  constructor <;> decide

/-- Witness of C2 at the content `(!--title Foo--)<p>x</p>`. -/
theorem wrapTemplate_title_witness :
    wrapTemplate
        "<title><!--place-title-here--></title><body><!--place-content-here--></body>".toList
        "(!--title Foo--)<p>x</p>".toList
      = "<title>Foo</title><body><p>x</p></body>".toList :=
  wrapTemplate_title
    "<title><!--place-title-here--></title><body><!--place-content-here--></body>".toList
    "<title><!--place-title-here--></title><body>".toList "</body>".toList
    "<title>".toList "</title><body>".toList [] " Foo".toList "<p>x</p>".toList '(' ')'
    (by decide) (by decide) (by decide) (by decide) (by decide) (by decide)
    (by rintro c1 (rfl | rfl) <;> decide) (by decide) (by decide) (by decide)

/-- C3 as stated fails: deleting the marker inside `(!--ti(!--title A--)tle B--)`
joins the text around it into a marker, which the output contains. -/
theorem wrapTemplate_marker_formed :
    wrapTemplate
        "<title><!--place-title-here--></title><body><!--place-content-here--></body>".toList
        "(!--ti(!--title A--)tle B--)".toList
        = "<title>A</title><body>(!--title B--)</body>".toList
      ∧ execTitle "<title>A</title><body>(!--title B--)</body>".toList
        = some ("<title>A</title><body>".toList, " B".toList, "</body>".toList) := by
  constructor <;> decide

/-- Witness of C3 at a content with two markers: the page before the deletion, the
hypotheses, the statement at this content, and the absence of markers from the
output. -/
theorem wrapTemplate_first_title_witness :
    execTitle "(!--title A--)<p>x</p>(!--title B--)".toList
        = some ([], " A".toList, "<p>x</p>(!--title B--)".toList)
      ∧ '$' ∉ " A".toList
      ∧ cutsFormNoMarker
          "<title>A</title><body>(!--title A--)<p>x</p>(!--title B--)</body>".toList = true
      ∧ wrapTemplate
          "<title><!--place-title-here--></title><body><!--place-content-here--></body>".toList
          "(!--title A--)<p>x</p>(!--title B--)".toList
        = stripTitles "<title>A</title><body>(!--title A--)<p>x</p>(!--title B--)</body>".toList
      ∧ stripTitles "<title>A</title><body>(!--title A--)<p>x</p>(!--title B--)</body>".toList
        = "<title>A</title><body><p>x</p></body>".toList
      ∧ "<title>A</title><body>(!--title A--)<p>x</p>(!--title B--)</body>".toList
        = "<title>".toList ++ trim " A".toList
          ++ "</title><body>(!--title A--)<p>x</p>(!--title B--)</body>".toList
      ∧ matchAt (("(!--title A--)<p>x</p>(!--title B--)".toList).drop ([] : Str).length)
        = some (" A".toList, "<p>x</p>(!--title B--)".toList)
      ∧ execTitle (wrapTemplate
          "<title><!--place-title-here--></title><body><!--place-content-here--></body>".toList
          "(!--title A--)<p>x</p>(!--title B--)".toList) = none := by
  have h := wrapTemplate_first_title
    "<title><!--place-title-here--></title><body><!--place-content-here--></body>".toList
    "(!--title A--)<p>x</p>(!--title B--)".toList [] " A".toList
    "<p>x</p>(!--title B--)".toList
    "<title>A</title><body>(!--title A--)<p>x</p>(!--title B--)</body>".toList
    (by decide) (by decide) (by decide)
  obtain ⟨⟨hfirst, _⟩, hshape, _, hw, _, _, _, _, hno⟩ := h
  exact ⟨by decide, by decide, by decide, hw, by decide,
    hshape "<title>".toList
      "</title><body>(!--title A--)<p>x</p>(!--title B--)</body>".toList (by decide),
    hfirst, hno (by decide)⟩

/-- C4 as stated fails: an empty content closes up the text around the one
placeholder of the first template into a placeholder; the deletion of the title
marker joins the two halves of a placeholder in the second content; and the empty
title of the third content closes up the text around the title placeholder. -/
theorem wrapTemplate_placeholder_returns :
    (countOccurrences contentPlaceholder
          "<!--place-<!--place-content-here-->content-here-->".toList = 1
        ∧ ¬ contentPlaceholder <:+: ([] : Str)
        ∧ wrapTemplate "<!--place-<!--place-content-here-->content-here-->".toList []
          = contentPlaceholder)
      ∧ (countOccurrences contentPlaceholder "<body><!--place-content-here--></body>".toList = 1
        ∧ ¬ contentPlaceholder <:+: "<!--place-co(!--title x--)ntent-here-->".toList
        ∧ wrapTemplate "<body><!--place-content-here--></body>".toList
            "<!--place-co(!--title x--)ntent-here-->".toList
          = "<body>".toList ++ contentPlaceholder ++ "</body>".toList)
      ∧ (countOccurrences contentPlaceholder
          ("<!--place-con<!--place-title-here-->tent-here-->"
            ++ "<body><!--place-content-here--></body>").toList = 1
        ∧ ¬ contentPlaceholder <:+: "(!--title --)".toList
        ∧ wrapTemplate
            ("<!--place-con<!--place-title-here-->tent-here-->"
              ++ "<body><!--place-content-here--></body>").toList
            "(!--title --)".toList
          = contentPlaceholder ++ "<body></body>".toList) := by
  refine ⟨⟨by decide, by decide, by decide⟩, ⟨by decide, ?_, by decide⟩, by decide, ?_,
    by decide⟩
  · rw [← splitFirst_eq_none_iff]
    decide
  · rw [← splitFirst_eq_none_iff]
    decide

/-- Witness of C4 at a template with title and content placeholder and the content
`(!--title Foo--)<p>x</p>`: the hypotheses, and the absence of the placeholder
from the page wrapped once and twice. -/
theorem wrapTemplate_no_placeholder_witness :
    cutsFormNoPlaceholder
        ("<title><!--place-title-here--></title><body>".toList ++ contentPlaceholder
          ++ "</body>".toList)
        "(!--title Foo--)<p>x</p>".toList = true
      ∧ wrapTemplate
          ("<title><!--place-title-here--></title><body>".toList ++ contentPlaceholder
            ++ "</body>".toList)
          "(!--title Foo--)<p>x</p>".toList
        = "<title>Foo</title><body><p>x</p></body>".toList
      ∧ ¬ contentPlaceholder <:+:
          wrapTemplate
            ("<title><!--place-title-here--></title><body>".toList ++ contentPlaceholder
              ++ "</body>".toList)
            "(!--title Foo--)<p>x</p>".toList
      ∧ ¬ contentPlaceholder <:+:
          wrapTemplate
            ("<title><!--place-title-here--></title><body>".toList ++ contentPlaceholder
              ++ "</body>".toList)
            (wrapTemplate
              ("<title><!--place-title-here--></title><body>".toList ++ contentPlaceholder
                ++ "</body>".toList)
              "(!--title Foo--)<p>x</p>".toList) := by
  have h := wrapTemplate_no_placeholder
    "<title><!--place-title-here--></title><body>".toList "</body>".toList
    "(!--title Foo--)<p>x</p>".toList
    (by rw [← splitFirst_eq_none_iff]; decide) (by rw [← splitFirst_eq_none_iff]; decide)
    (by decide) (by decide) (by rw [← splitFirst_eq_none_iff]; decide) (by decide) (by decide)
  exact ⟨by decide, by decide, h.1, h.2 (by decide) (by decide) (by decide)⟩

set_option maxRecDepth 100000 in
/-- C7 as stated fails: for the challenge id `(!--title x--)` and an empty
index.md, of which the Markdown renderer makes the empty string, the id is cut
out of the page as a title marker and the rules link is not in the output. -/
theorem rules_link_cut :
    contentPlaceholder <:+:
        "<title><!--place-title-here--></title><body><!--place-content-here--></body>".toList
      ∧ processChallenge (fun s : Str => s) (fun s _ => (Except.ok s : Except Unit Str))
          "<title><!--place-title-here--></title><body><!--place-content-here--></body>".toList
          "challenges".toList "(!--title x--)".toList (.ok ()) [] []
        = .ok [("public_html/content/challenges/(!--title x--)/index.htm".toList,
                ("<title>x</title><body><div><a href=\"/challenges//rules\">Official Rules</a>"
                  ++ "</div></body>").toList),
               ("public_html/content/challenges/(!--title x--)/rules.htm".toList,
                "<title><!--place-title-here--></title><body></body>".toList)]
      ∧ ¬ rulesLink "(!--title x--)".toList <:+:
          ("<title>x</title><body><div><a href=\"/challenges//rules\">Official Rules</a>"
            ++ "</div></body>").toList := by
  refine ⟨⟨"<title><!--place-title-here--></title><body>".toList, "</body>".toList, by decide⟩,
    ?_, ?_⟩
  · rfl
  · rw [← splitFirst_eq_none_iff]
    decide

/-- Witness of C7 at the challenge id `1`, with a renderer that wraps the source in
a paragraph and ends it with a line feed. -/
theorem processChallenge_pages_witness :
    rulesLink "1".toList <:+:
      wrapTemplate
        "<title><!--place-title-here--></title><body><!--place-content-here--></body>".toList
        ((fun s : Str => "<p>".toList ++ s ++ "</p>\n".toList) "(!--title One--) hi".toList
          ++ rulesSuffix "1".toList) :=
  (processChallenge_pages (ε := Unit)
    (fun s : Str => "<p>".toList ++ s ++ "</p>\n".toList) (fun s _ => .ok s)
    "<title><!--place-title-here--></title><body><!--place-content-here--></body>".toList
    "challenges".toList "1".toList "(!--title One--) hi".toList []).2
    ⟨"<title><!--place-title-here--></title><body>".toList, "</body>".toList, by decide⟩
    (by decide) (by decide)
    (Or.inr ⟨"<p>(!--title One--) hi</p>".toList, Char.ofNat 10, by decide, by decide⟩)

end Build
